import Mathlib

/-!
The nterm render path (`src/nterm/src/render.c`).

A shallow embedding of the four functions of `render.c`
(`ntermCheckBoundaries`, `ntermDrawCursor`, `ntermEraseCursor`, `ntermPutc`)
and proofs about them.

Modelling conventions.

* `terminal` (the process-wide record) becomes the structure `Terminal`, passed
  explicitly.  The header `nterm.h` that declares it is not among the sources,
  so its integer fields are natural numbers without a width; `hchar - 1` is the
  only subtraction and is exact whenever `hchar ≥ 1`.
* `terminal.buffer` is a byte-addressed memory indexed by the byte offset from
  the buffer's base address.  A `uint32_t` store writes four bytes, least
  significant first.
* `terminal.lfb` is a file offset together with the list of the writes issued so
  far; `lseek(fd, off, SEEK_SET)` sets the offset and `write` appends the bytes
  it is handed.
* C defines `memcpy` only for ranges that do not overlap (`IsMemcpy`).  The
  scroll calls it on ranges that overlap as soon as the grid has three rows, so
  the copy is a parameter of `ntermCheckBoundariesWith`; `memcpy`, the byte copy
  in ascending address order, is the one used wherever what is copied on an
  overlap plays no part, and `memcpyDown` is the copy in descending order.
* The font table and the two glyph bounds come from a header that is not among
  the sources; they are the parameter `Font`.
* `ntermPutc` calls itself for a character outside the glyph range.  The
  embedding takes the number of nested calls it may make as `fuel`.
-/

namespace Nterm

/-! ## Memory -/

/-- One byte. -/
abbrev Byte := Fin 256

/-- Byte-addressed memory; address `k` is the byte at `(uintptr_t)terminal.buffer + k`. -/
abbrev Memory := Nat → Byte

/-- A `uint32_t` value. -/
abbrev Word32 := Fin 4294967296

/-- Byte number `k` (least significant first) of the value `v`. -/
def byteOf (v k : Nat) : Byte := ⟨v / 256 ^ k % 256, Nat.mod_lt _ (by decide)⟩

/-- Store of one byte at address `a`. -/
def storeByte (m : Memory) (a : Nat) (b : Byte) : Memory :=
  fun k => if k = a then b else m k

/-- Store of a `uint32_t` at byte address `a` (`*p = v` for `uint32_t *p`). -/
def store32 (m : Memory) (a v : Nat) : Memory :=
  storeByte (storeByte (storeByte (storeByte m a (byteOf v 0)) (a + 1) (byteOf v 1))
    (a + 2) (byteOf v 2)) (a + 3) (byteOf v 3)

/-- Load of a `uint32_t` from byte address `a`. -/
def load32 (m : Memory) (a : Nat) : Nat :=
  (m a).val + 256 * (m (a + 1)).val + 65536 * (m (a + 2)).val + 16777216 * (m (a + 3)).val

/-- The `n` bytes starting at address `a`, in address order. -/
def readBytes (m : Memory) (a n : Nat) : List Byte :=
  (List.range n).map (fun k => m (a + k))

/-- Forward byte copy of `n` bytes from `src` to `dst`: `memcpy(dst, src, n)` as
a library that copies in ascending address order performs it. -/
def memcpy (m : Memory) (dst src : Nat) : Nat → Memory
  | 0 => m
  | n + 1 =>
    let m1 := memcpy m dst src n
    storeByte m1 (dst + n) (m1 (src + n))

/-- Backward byte copy of `n` bytes from `src` to `dst`: `memcpy(dst, src, n)` as
a library that copies in descending address order performs it, the byte at
offset `n - 1` first. -/
def memcpyDown (m : Memory) (dst src : Nat) : Nat → Memory
  | 0 => m
  | n + 1 => memcpyDown (storeByte m (dst + n) (m (src + n))) dst src n

/-- What C promises of `memcpy`: called on two ranges that do not overlap, it
leaves the bytes of the source in the destination and changes no other byte.
Of a call on overlapping ranges C promises nothing. -/
def IsMemcpy (copy : Memory → Nat → Nat → Nat → Memory) : Prop :=
  ∀ m dst src n, (dst + n ≤ src ∨ src + n ≤ dst) →
    ∀ k, copy m dst src n k = if dst ≤ k ∧ k < dst + n then m (src + (k - dst)) else m k

/-! ## Terminal state and output device -/

/-- One `write` on the frame buffer device: the file offset it started at and
the bytes it was handed. -/
structure DeviceWrite where
  offset : Nat
  data : List Byte
deriving DecidableEq

/-- The record `terminal`.  `lfbPos` and `lfbWrites` stand for the device behind
the descriptor `terminal.lfb`: its file offset and the writes issued so far,
oldest first.  `scrolls` is a ghost counter, absent from the C record: the
number of times `ntermCheckBoundaries` has taken its scroll branch and returned 1. -/
structure Terminal where
  x : Nat
  y : Nat
  wchar : Nat
  hchar : Nat
  width : Nat
  pitch : Nat
  lineSize : Nat
  totalSize : Nat
  buffer : Memory
  fg : Word32
  bg : Word32
  cursor : Bool
  lfbPos : Nat
  lfbWrites : List DeviceWrite
  scrolls : Nat

/-- The call `lseek(terminal.lfb, off, SEEK_SET)`. -/
def lseek (t : Terminal) (off : Nat) : Terminal :=
  { t with lfbPos := off }

/-- The call `write(terminal.lfb, ptr, n)`, with `ptr` given as its byte offset
from `terminal.buffer`. -/
def lfbWrite (t : Terminal) (ptr n : Nat) : Terminal :=
  { t with
    lfbWrites := t.lfbWrites ++ [{ offset := t.lfbPos, data := readBytes t.buffer ptr n }]
    lfbPos := t.lfbPos + n }

/-! ## ntermCheckBoundaries -/

/-- Inner loop of the clear, `for(j = 0; j < n; j++) lastLine[j] = bg`, with
`lastLine` at byte address `line`. -/
def fillRow (m : Memory) (line bg : Nat) : Nat → Memory
  | 0 => m
  | j + 1 => store32 (fillRow m line bg j) (line + 4 * j) bg

/-- Outer loop of the clear: `n` passes; pass `i` fills `width` pixels of the
scanline at `lastLine + i * pitch`, `lastLine` being advanced by `pitch` bytes
at the end of every pass. -/
def clearLoop (m : Memory) (lastLine width pitch bg : Nat) : Nat → Memory
  | 0 => m
  | i + 1 => fillRow (clearLoop m lastLine width pitch bg i) (lastLine + i * pitch) bg width

/-- The function `ntermCheckBoundaries`: the returned `int` and the state after the call. -/
def ntermCheckBoundaries (t : Terminal) : Nat × Terminal :=
  let t1 := if t.x ≥ t.wchar then { t with x := 0, y := t.y + 1 } else t
  if t1.y ≥ t1.hchar then
    let secondLine := 16 * t1.pitch
    let size := (t1.hchar - 1) * 16 * t1.pitch
    let b1 := memcpy t1.buffer 0 secondLine size
    let lastLine := size
    let b2 := clearLoop b1 lastLine t1.width t1.pitch t1.bg.val 16
    let t2 := { t1 with buffer := b2, x := 0, y := t1.hchar - 1, scrolls := t1.scrolls + 1 }
    let t3 := lseek t2 0
    let t4 := lfbWrite t3 0 t3.totalSize
    (1, t4)
  else
    (0, t1)

/-- The function `ntermCheckBoundaries` with the `memcpy` of the C library as the
parameter `copy`: the returned `int` and the state after the call. -/
def ntermCheckBoundariesWith (copy : Memory → Nat → Nat → Nat → Memory) (t : Terminal) :
    Nat × Terminal :=
  let t1 := if t.x ≥ t.wchar then { t with x := 0, y := t.y + 1 } else t
  if t1.y ≥ t1.hchar then
    let secondLine := 16 * t1.pitch
    let size := (t1.hchar - 1) * 16 * t1.pitch
    let b1 := copy t1.buffer 0 secondLine size
    let lastLine := size
    let b2 := clearLoop b1 lastLine t1.width t1.pitch t1.bg.val 16
    let t2 := { t1 with buffer := b2, x := 0, y := t1.hchar - 1, scrolls := t1.scrolls + 1 }
    let t3 := lseek t2 0
    let t4 := lfbWrite t3 0 t3.totalSize
    (1, t4)
  else
    (0, t1)

/-! ## Cursor -/

/-- The loop shared in shape by `ntermDrawCursor` and `ntermEraseCursor`:
`for(i = 0; i < n; i++) { *fb = color; fb += terminal.width; }`.  `fb` is a
`uint32_t *`, so `fb += width` moves it by `4 * width` bytes and pass `i`
stores at byte address `fb + i * (4 * width)`. -/
def cursorLoop (m : Memory) (fb width color : Nat) : Nat → Memory
  | 0 => m
  | i + 1 => store32 (cursorLoop m fb width color i) (fb + i * (4 * width)) color

/-- Byte offset of the top left pixel of the cursor cell:
`(y * terminal.pitch) + (x * 4)` with `x = terminal.x * 8`, `y = terminal.y * 16`. -/
def cellAddr (t : Terminal) : Nat :=
  (t.y * 16) * t.pitch + (t.x * 8) * 4

/-- The function `ntermDrawCursor`. -/
def ntermDrawCursor (t : Terminal) : Terminal :=
  if !t.cursor then t
  else { t with buffer := cursorLoop t.buffer (cellAddr t) t.width t.fg.val 16 }

/-- The function `ntermEraseCursor`; `fb[7]` is the `uint32_t` at byte address `fb + 28`. -/
def ntermEraseCursor (t : Terminal) : Terminal :=
  let fb := cellAddr t
  let color := load32 t.buffer (fb + 7 * 4)
  { t with buffer := cursorLoop t.buffer fb t.width color 16 }

/-! ## ntermPutc -/

/-- The font table `font` and the bounds `FONT_MIN_GLYPH`, `FONT_MAX_GLYPH`. -/
structure Font where
  minGlyph : Int
  maxGlyph : Int
  data : Nat → Byte

/-- The value of the `uint8_t b` after `j` passes of `b <<= 1`. -/
def shl8 (b j : Nat) : Nat := (b <<< j) % 256

/-- Inner glyph loop: `n` passes; pass `j` stores `fg` at `fb[j]` if `b & 0x80`
is set and `bg` otherwise, then shifts `b` left by one. -/
def glyphRow (m : Memory) (fb b fg bg : Nat) : Nat → Memory
  | 0 => m
  | j + 1 =>
    store32 (glyphRow m fb b fg bg j) (fb + 4 * j)
      (if shl8 b j &&& 0x80 ≠ 0 then fg else bg)

/-- Outer glyph loop: `n` passes; pass `i` paints `data[i]` on the scanline at
`fb + i * pitch`, `fb` being advanced by `pitch` bytes at the end of every pass.
`data` is `&font[idx]`. -/
def glyphLoop (font : Nat → Byte) (idx : Nat) (m : Memory) (fb pitch fg bg : Nat) : Nat → Memory
  | 0 => m
  | i + 1 =>
    glyphRow (glyphLoop font idx m fb pitch fg bg i) (fb + i * pitch) (font (idx + i)).val fg bg 8

/-- Branch `c == '\n'` of `ntermPutc`. -/
def putcNewline (t : Terminal) : Terminal :=
  let t1 := ntermEraseCursor t
  let t2 := lfbWrite (lseek t1 (t1.y * t1.lineSize)) (t1.y * t1.lineSize) t1.lineSize
  let t3 := { t2 with x := 0, y := t2.y + 1 }
  let t4 := (ntermCheckBoundaries t3).2
  let t5 := ntermDrawCursor t4
  lfbWrite (lseek t5 (t5.y * t5.lineSize)) (t5.y * t5.lineSize) t5.lineSize

/-- Branch `c == '\r'` of `ntermPutc`. -/
def putcReturn (t : Terminal) : Terminal :=
  { ntermEraseCursor t with x := 0 }

/-- The part of `ntermPutc` for a character inside the glyph range, up to and
including `terminal.x++`: erase the cursor, paint the glyph. -/
def putcPaint (F : Font) (c : Int) (t : Terminal) : Terminal :=
  let t1 := ntermEraseCursor t
  let fb := cellAddr t1
  let idx := ((c - F.minGlyph) * 16).toNat
  let b := glyphLoop F.data idx t1.buffer fb t1.pitch t1.fg.val t1.bg.val 16
  { t1 with buffer := b, x := t1.x + 1 }

/-- The part of `ntermPutc` after `terminal.x++`; `offset` is the value
`y * terminal.pitch` computed before the cursor advanced, which is also the
offset of `ptr` from the buffer. -/
def putcFinish (offset : Nat) (t : Terminal) : Terminal :=
  let r := ntermCheckBoundaries t
  if r.1 ≠ 0 then r.2
  else
    let t1 := ntermDrawCursor r.2
    lfbWrite (lseek t1 offset) offset t1.lineSize

/-- Path of `ntermPutc` for a character inside the glyph range. -/
def putcGlyph (F : Font) (c : Int) (t : Terminal) : Terminal :=
  putcFinish ((t.y * 16) * t.pitch) (putcPaint F c t)

/-- The function `ntermPutc`.  `'\n'` is 10, `'\r'` is 13 and `'?'` is 63.  `fuel`
bounds the nested calls; `none` means the bound was reached. -/
def ntermPutc (F : Font) (fuel : Nat) (c : Int) (t : Terminal) : Option Terminal :=
  if c = 10 then some (putcNewline t)
  else if c = 13 then some (putcReturn t)
  else if c < F.minGlyph ∨ c > F.maxGlyph then
    match fuel with
    | 0 => none
    | n + 1 => ntermPutc F n 63 t
  else some (putcGlyph F c t)

/-- The state in which `ntermPutc('\n')` calls `ntermCheckBoundaries`: cursor
erased, old row flushed, `x = 0`, `y` incremented. -/
def putcNewlinePre (t : Terminal) : Terminal :=
  let t1 := ntermEraseCursor t
  let t2 := lfbWrite (lseek t1 (t1.y * t1.lineSize)) (t1.y * t1.lineSize) t1.lineSize
  { t2 with x := 0, y := t2.y + 1 }

/-- Calls `ntermPutc` on each character of `cs` in order. -/
def putcAll (F : Font) (fuel : Nat) : List Int → Terminal → Option Terminal
  | [], t => some t
  | c :: cs, t => (ntermPutc F fuel c t).bind (putcAll F fuel cs)

/-- The fields of `terminal` that `render.c` never assigns are the same in `t` and `t2`. -/
def SameGeometry (t t2 : Terminal) : Prop :=
  t2.wchar = t.wchar ∧ t2.hchar = t.hchar ∧ t2.width = t.width ∧ t2.pitch = t.pitch ∧
  t2.lineSize = t.lineSize ∧ t2.totalSize = t.totalSize ∧ t2.fg = t.fg ∧ t2.bg = t.bg ∧
  t2.cursor = t.cursor

/-- Number of the device writes in `ws` that are `n` bytes long. -/
def writesOfSize (n : Nat) (ws : List DeviceWrite) : Nat :=
  ws.countP (fun w => w.data.length = n)

/-- The character a printable `c` is painted as: `c` itself inside the glyph
range, `'?'` outside it. -/
def glyphFor (F : Font) (c : Int) : Int :=
  if c < F.minGlyph ∨ c > F.maxGlyph then 63 else c

/-- The cursor invariant of the terminal record: `0 ≤ x ≤ wchar` and `0 ≤ y ≤ hchar`. -/
def CursorInRange (t : Terminal) : Prop :=
  0 ≤ t.x ∧ t.x ≤ t.wchar ∧ 0 ≤ t.y ∧ t.y ≤ t.hchar

/-! ## Device content -/

/-- The device content after the write `w`: the bytes from `w.offset` on are
replaced by the bytes written. -/
def applyWrite (dev : Memory) (w : DeviceWrite) : Memory :=
  fun k => if w.offset ≤ k then w.data.getD (k - w.offset) (dev k) else dev k

/-- The device content after the writes `ws`, applied oldest first. -/
def deviceAfter (dev : Memory) (ws : List DeviceWrite) : Memory :=
  ws.foldl applyWrite dev

/-! ## Footprints

The byte ranges of the mirror buffer and the indices of the font table that the
functions touch, listed in program order by definitions that follow the
functions step by step: one entry per load, store, `memcpy` operand and range
handed to `write`. -/

/-- One access to the mirror buffer: `len` bytes from byte offset `addr`. -/
structure Access where
  addr : Nat
  len : Nat
deriving DecidableEq

/-- Stores of `cursorLoop`: pass `i` writes the `uint32_t` at `fb + i * (4 * width)`. -/
def cursorLoopAccesses (fb width : Nat) : Nat → List Access
  | 0 => []
  | i + 1 => cursorLoopAccesses fb width i ++ [{ addr := fb + i * (4 * width), len := 4 }]

/-- Accesses of `ntermDrawCursor`. -/
def drawCursorAccesses (t : Terminal) : List Access :=
  if !t.cursor then []
  else cursorLoopAccesses (cellAddr t) t.width 16

/-- Accesses of `ntermEraseCursor`: the load of `fb[7]`, then the stores of the loop. -/
def eraseCursorAccesses (t : Terminal) : List Access :=
  { addr := cellAddr t + 7 * 4, len := 4 } :: cursorLoopAccesses (cellAddr t) t.width 16

/-- Stores of `fillRow`. -/
def fillRowAccesses (line : Nat) : Nat → List Access
  | 0 => []
  | j + 1 => fillRowAccesses line j ++ [{ addr := line + 4 * j, len := 4 }]

/-- Stores of `clearLoop`. -/
def clearLoopAccesses (lastLine width pitch : Nat) : Nat → List Access
  | 0 => []
  | i + 1 => clearLoopAccesses lastLine width pitch i ++ fillRowAccesses (lastLine + i * pitch) width

/-- Accesses of `ntermCheckBoundaries`: none without a scroll; with a scroll the
source and the destination of `memcpy`, the stores of the clear and the range
handed to `write`. -/
def checkBoundariesAccesses (t : Terminal) : List Access :=
  let t1 := if t.x ≥ t.wchar then { t with x := 0, y := t.y + 1 } else t
  if t1.y ≥ t1.hchar then
    let secondLine := 16 * t1.pitch
    let size := (t1.hchar - 1) * 16 * t1.pitch
    [{ addr := secondLine, len := size }, { addr := 0, len := size }]
      ++ clearLoopAccesses size t1.width t1.pitch 16
      ++ [{ addr := 0, len := t1.totalSize }]
  else
    []

/-- Stores of `glyphRow`. -/
def glyphRowAccesses (fb : Nat) : Nat → List Access
  | 0 => []
  | j + 1 => glyphRowAccesses fb j ++ [{ addr := fb + 4 * j, len := 4 }]

/-- Stores of `glyphLoop`. -/
def glyphLoopAccesses (fb pitch : Nat) : Nat → List Access
  | 0 => []
  | i + 1 => glyphLoopAccesses fb pitch i ++ glyphRowAccesses (fb + i * pitch) 8

/-- Font table indices read by `glyphLoop`: pass `i` reads `data[i]`, that is `font[idx + i]`. -/
def glyphLoopFontReads (idx : Nat) : Nat → List Nat
  | 0 => []
  | i + 1 => glyphLoopFontReads idx i ++ [idx + i]

/-- Buffer accesses of the branch `c == '\n'` of `ntermPutc`. -/
def putcNewlineAccesses (t : Terminal) : List Access :=
  let t1 := ntermEraseCursor t
  let t4 := (ntermCheckBoundaries (putcNewlinePre t)).2
  let t5 := ntermDrawCursor t4
  eraseCursorAccesses t
    ++ [{ addr := t1.y * t1.lineSize, len := t1.lineSize }]
    ++ checkBoundariesAccesses (putcNewlinePre t)
    ++ drawCursorAccesses t4
    ++ [{ addr := t5.y * t5.lineSize, len := t5.lineSize }]

/-- Buffer accesses of the glyph path of `ntermPutc`. -/
def putcGlyphAccesses (F : Font) (c : Int) (t : Terminal) : List Access :=
  let t1 := ntermEraseCursor t
  let r := ntermCheckBoundaries (putcPaint F c t)
  eraseCursorAccesses t
    ++ glyphLoopAccesses (cellAddr t1) t1.pitch 16
    ++ checkBoundariesAccesses (putcPaint F c t)
    ++ (if r.1 ≠ 0 then []
        else drawCursorAccesses r.2
          ++ [{ addr := (t.y * 16) * t.pitch, len := (ntermDrawCursor r.2).lineSize }])

/-- What one call of `ntermPutc` touches: ranges of the mirror buffer and
indices of the font table. -/
structure Footprint where
  buffer : List Access
  font : List Nat

/-- Footprint of `ntermPutc`, following its dispatch; `none` when the bound on
nested calls is reached. -/
def ntermPutcFootprint (F : Font) (fuel : Nat) (c : Int) (t : Terminal) : Option Footprint :=
  if c = 10 then some { buffer := putcNewlineAccesses t, font := [] }
  else if c = 13 then some { buffer := eraseCursorAccesses t, font := [] }
  else if c < F.minGlyph ∨ c > F.maxGlyph then
    match fuel with
    | 0 => none
    | n + 1 => ntermPutcFootprint F n 63 t
  else
    some { buffer := putcGlyphAccesses F c t
           font := glyphLoopFontReads ((c - F.minGlyph) * 16).toNat 16 }

/-- Number of bytes of the font table: 16 for each code from `FONT_MIN_GLYPH` to
`FONT_MAX_GLYPH`. -/
def fontSize (F : Font) : Nat := (16 * (F.maxGlyph - F.minGlyph + 1)).toNat

/-! ## Concrete states -/

/-- Memory whose byte at address `k` is `k mod 256`. -/
def rampMem : Memory := fun k => ⟨k % 256, Nat.mod_lt _ (by decide)⟩

/-- Memory of zero bytes. -/
def zeroMem : Memory := fun _ => 0

/-- A 2 x 2 grid of 8 x 16 cells, 16 pixels wide with 8 padding bytes per
scanline, cursor past the end of the bottom row. -/
def scrollState : Terminal :=
  { x := 2, y := 1, wchar := 2, hchar := 2, width := 16, pitch := 72, lineSize := 1152,
    totalSize := 2304, buffer := rampMem, fg := 16777215, bg := 255, cursor := true,
    lfbPos := 7, lfbWrites := [], scrolls := 0 }

/-- A single cell row of two cells whose scanlines are 16 pixels wide and carry
32 padding bytes (`pitch = 96`), blank, cursor shown in the first cell. -/
def paddedState : Terminal :=
  { x := 0, y := 0, wchar := 2, hchar := 1, width := 16, pitch := 96, lineSize := 1536,
    totalSize := 1536, buffer := zeroMem, fg := 16777215, bg := 0, cursor := true,
    lfbPos := 0, lfbWrites := [], scrolls := 0 }

/-- A font over the codes 32 to 126 whose glyphs are all blank. -/
def blankFont : Font := { minGlyph := 32, maxGlyph := 126, data := fun _ => 0 }

/-- A single row of two cells with no padding (`pitch = 4 * width`), blank,
cursor shown at cell `(0, 0)`; a row flush covers the whole buffer. -/
def singleRowState : Terminal :=
  { x := 0, y := 0, wchar := 2, hchar := 1, width := 16, pitch := 64, lineSize := 1024,
    totalSize := 1024, buffer := zeroMem, fg := 16777215, bg := 0, cursor := true,
    lfbPos := 0, lfbWrites := [], scrolls := 0 }

/-- A grid of one cell, blank, cursor shown. -/
def singleCellState : Terminal :=
  { x := 0, y := 0, wchar := 1, hchar := 1, width := 8, pitch := 32, lineSize := 512,
    totalSize := 512, buffer := zeroMem, fg := 16777215, bg := 0, cursor := true,
    lfbPos := 0, lfbWrites := [], scrolls := 0 }

/-- A 2 x 2 grid with no padding, blank, cursor shown at cell `(0, 0)`. -/
def gridState : Terminal :=
  { x := 0, y := 0, wchar := 2, hchar := 2, width := 16, pitch := 64, lineSize := 1024,
    totalSize := 2048, buffer := zeroMem, fg := 16777215, bg := 0, cursor := true,
    lfbPos := 0, lfbWrites := [], scrolls := 0 }

/-- A frame buffer 4 pixels wide, too narrow for a single cell: a grid of zero
columns and three rows, cursor at `(0, 0)`. -/
def zeroColumnState : Terminal :=
  { x := 0, y := 0, wchar := 0, hchar := 3, width := 4, pitch := 16, lineSize := 256,
    totalSize := 768, buffer := zeroMem, fg := 16777215, bg := 0, cursor := true,
    lfbPos := 0, lfbWrites := [], scrolls := 0 }

/-- The 2 x 2 grid with the cursor at the start of its bottom row. -/
def bottomRowState : Terminal := { gridState with x := 0, y := 1 }

/-- The 2 x 2 grid with the cursor in the last column of its top row. -/
def lastColumnState : Terminal := { gridState with x := 1, y := 0 }

/-- Memory whose byte at address `k` is the number of the 512-byte band `k` lies in. -/
def bandMem : Memory := fun k => ⟨k / 512 % 256, Nat.mod_lt _ (by decide)⟩

/-- A grid of one column and three rows (`pitch = 32`, so a cell row is 512
bytes and band `r` of `bandMem` is cell row `r`), cursor past the last cell. -/
def threeRowState : Terminal :=
  { x := 1, y := 2, wchar := 1, hchar := 3, width := 8, pitch := 32, lineSize := 512,
    totalSize := 1536, buffer := bandMem, fg := 16777215, bg := 0, cursor := true,
    lfbPos := 0, lfbWrites := [], scrolls := 0 }

/-! ## Bytes, stores and loads -/

theorem store32_apply (m : Memory) (a v k : Nat) :
    store32 m a v k = if a ≤ k ∧ k < a + 4 then byteOf v (k - a) else m k := by
  unfold store32 storeByte
  by_cases h3 : k = a + 3
  · subst h3; simp
  by_cases h2 : k = a + 2
  · subst h2; simp
  by_cases h1 : k = a + 1
  · subst h1; simp
  by_cases h0 : k = a
  · subst h0; simp
  · have : ¬ (a ≤ k ∧ k < a + 4) := by omega
    simp [h0, h1, h2, h3, this]

theorem store32_of_outside (m : Memory) (a v k : Nat) (h : k < a ∨ a + 4 ≤ k) :
    store32 m a v k = m k := by
  rw [store32_apply, if_neg (by omega)]

theorem store32_of_inside (m : Memory) (a v r : Nat) (h : r < 4) :
    store32 m a v (a + r) = byteOf v r := by
  rw [store32_apply, if_pos (by omega)]
  congr 1; omega

theorem load32_congr (m1 m2 : Memory) (a : Nat)
    (h : ∀ r, r < 4 → m1 (a + r) = m2 (a + r)) : load32 m1 a = load32 m2 a := by
  unfold load32
  have h0 := h 0 (by omega)
  rw [Nat.add_zero] at h0
  rw [h0, h 1 (by omega), h 2 (by omega), h 3 (by omega)]

theorem load32_of_bytes (m : Memory) (a v : Nat)
    (h : ∀ r, r < 4 → m (a + r) = byteOf v r) : load32 m a = v % 4294967296 := by
  unfold load32
  have h0 := h 0 (by omega)
  rw [Nat.add_zero] at h0
  rw [h0, h 1 (by omega), h 2 (by omega), h 3 (by omega)]
  simp only [byteOf]
  norm_num
  omega

theorem load32_lt (m : Memory) (a : Nat) : load32 m a < 4294967296 := by
  unfold load32
  have h0 := (m a).isLt
  have h1 := (m (a + 1)).isLt
  have h2 := (m (a + 2)).isLt
  have h3 := (m (a + 3)).isLt
  omega

theorem byteOf_load32 (m : Memory) (a r : Nat) (h : r < 4) :
    byteOf (load32 m a) r = m (a + r) := by
  have h0 := (m a).isLt
  have h1 := (m (a + 1)).isLt
  have h2 := (m (a + 2)).isLt
  have h3 := (m (a + 3)).isLt
  apply Fin.ext
  simp only [byteOf, load32]
  interval_cases r <;> simp <;> omega

/-! ## memcpy -/

theorem memcpy_apply (m : Memory) (dst src : Nat) (h : dst ≤ src) (n k : Nat) :
    memcpy m dst src n k = if dst ≤ k ∧ k < dst + n then m (src + (k - dst)) else m k := by
  induction n generalizing k with
  | zero =>
    rw [if_neg (by omega)]
    rfl
  | succ n ih =>
    simp only [memcpy, storeByte]
    by_cases hk : k = dst + n
    · subst hk
      rw [if_pos rfl, ih, if_neg (by omega), if_pos (by omega)]
      congr 1; omega
    · rw [if_neg hk, ih]
      by_cases hin : dst ≤ k ∧ k < dst + n
      · rw [if_pos hin, if_pos (by omega)]
      · rw [if_neg hin, if_neg (by omega)]

/-! ## The loops, byte by byte -/

theorem mul_stride_le (i j p : Nat) (h : i ≤ j) : i * p ≤ j * p :=
  Nat.mul_le_mul_right p h

theorem fillRow_apply (m : Memory) (line v n k : Nat) :
    fillRow m line v n k
      = if line ≤ k ∧ k < line + 4 * n then byteOf v ((k - line) % 4) else m k := by
  induction n with
  | zero =>
    rw [if_neg (by omega)]
    rfl
  | succ n ih =>
    simp only [fillRow]
    rw [store32_apply, ih]
    by_cases h1 : line + 4 * n ≤ k ∧ k < line + 4 * n + 4
    · rw [if_pos h1, if_pos (by omega)]
      congr 1; omega
    · rw [if_neg h1]
      by_cases h2 : line ≤ k ∧ k < line + 4 * n
      · rw [if_pos h2, if_pos (by omega)]
      · rw [if_neg h2, if_neg (by omega)]

theorem clearLoop_of_outside (m : Memory) (base w p v n k : Nat)
    (h : ∀ i, i < n → k < base + i * p ∨ base + i * p + 4 * w ≤ k) :
    clearLoop m base w p v n k = m k := by
  induction n with
  | zero => rfl
  | succ n ih =>
    simp only [clearLoop]
    have hn := h n (by omega)
    rw [fillRow_apply, if_neg (by omega)]
    exact ih (fun i hi => h i (by omega))

theorem clearLoop_of_inside (m : Memory) (base w p v n : Nat) (hp : 4 * w ≤ p)
    (i j r : Nat) (hi : i < n) (hj : j < w) (hr : r < 4) :
    clearLoop m base w p v n (base + i * p + 4 * j + r) = byteOf v r := by
  induction n with
  | zero => omega
  | succ n ih =>
    simp only [clearLoop]
    rw [fillRow_apply]
    by_cases hin : i = n
    · subst hin
      rw [if_pos (by omega)]
      congr 1; omega
    · have hlt : i < n := by omega
      have hs := mul_stride_le (i + 1) n p (by omega)
      rw [Nat.add_mul, Nat.one_mul] at hs
      rw [if_neg (by omega)]
      exact ih hlt

theorem cursorLoop_of_outside (m : Memory) (fb w v n k : Nat)
    (h : ∀ i, i < n → k < fb + i * (4 * w) ∨ fb + i * (4 * w) + 4 ≤ k) :
    cursorLoop m fb w v n k = m k := by
  induction n with
  | zero => rfl
  | succ n ih =>
    simp only [cursorLoop]
    rw [store32_of_outside _ _ _ _ (h n (by omega))]
    exact ih (fun i hi => h i (by omega))

theorem cursorLoop_of_inside (m : Memory) (fb w v n : Nat)
    (i r : Nat) (hi : i < n) (hr : r < 4) :
    cursorLoop m fb w v n (fb + i * (4 * w) + r) = byteOf v r := by
  induction n with
  | zero => omega
  | succ n ih =>
    simp only [cursorLoop]
    rw [store32_apply]
    by_cases hin : i = n
    · subst hin
      rw [if_pos (by omega)]
      congr 1; omega
    · have hlt : i < n := by omega
      rcases Nat.eq_zero_or_pos w with hw | hw
      · subst hw
        simp only [Nat.mul_zero, Nat.add_zero]
        rw [if_pos (by omega)]
        congr 1; omega
      · have hs := mul_stride_le (i + 1) n (4 * w) (by omega)
        rw [Nat.add_mul, Nat.one_mul] at hs
        rw [if_neg (by omega)]
        exact ih hlt

theorem glyphRow_of_outside (m : Memory) (fb b fg bg n k : Nat)
    (h : k < fb ∨ fb + 4 * n ≤ k) : glyphRow m fb b fg bg n k = m k := by
  induction n with
  | zero => rfl
  | succ n ih =>
    simp only [glyphRow]
    rw [store32_of_outside _ _ _ _ (by omega)]
    exact ih (by omega)

theorem glyphRow_of_inside (m : Memory) (fb b fg bg n : Nat)
    (j r : Nat) (hj : j < n) (hr : r < 4) :
    glyphRow m fb b fg bg n (fb + 4 * j + r)
      = byteOf (if shl8 b j &&& 0x80 ≠ 0 then fg else bg) r := by
  induction n with
  | zero => omega
  | succ n ih =>
    simp only [glyphRow]
    rw [store32_apply]
    by_cases hjn : j = n
    · subst hjn
      rw [if_pos (by omega)]
      congr 1; omega
    · rw [if_neg (by omega)]
      exact ih (by omega)

theorem glyphLoop_of_outside (font : Nat → Byte) (idx : Nat) (m : Memory) (fb p fg bg n k : Nat)
    (h : ∀ i, i < n → k < fb + i * p ∨ fb + i * p + 32 ≤ k) :
    glyphLoop font idx m fb p fg bg n k = m k := by
  induction n with
  | zero => rfl
  | succ n ih =>
    simp only [glyphLoop]
    have hn := h n (by omega)
    rw [glyphRow_of_outside _ _ _ _ _ _ _ (by omega)]
    exact ih (fun i hi => h i (by omega))

theorem glyphLoop_of_inside (font : Nat → Byte) (idx : Nat) (m : Memory) (fb p fg bg n : Nat)
    (hp : 32 ≤ p) (i j r : Nat) (hi : i < n) (hj : j < 8) (hr : r < 4) :
    glyphLoop font idx m fb p fg bg n (fb + i * p + 4 * j + r)
      = byteOf (if shl8 (font (idx + i)).val j &&& 0x80 ≠ 0 then fg else bg) r := by
  induction n with
  | zero => omega
  | succ n ih =>
    simp only [glyphLoop]
    by_cases hin : i = n
    · subst hin
      exact glyphRow_of_inside _ _ _ _ _ _ j r hj hr
    · have hlt : i < n := by omega
      have hs := mul_stride_le (i + 1) n p (by omega)
      rw [Nat.add_mul, Nat.one_mul] at hs
      rw [glyphRow_of_outside _ _ _ _ _ _ _ (by omega)]
      exact ih hlt

set_option maxRecDepth 1000000 in
theorem shl8_bit (b : Byte) (j : Fin 8) :
    (shl8 b.val j.val &&& 0x80 ≠ 0) ↔ b.val.testBit (7 - j.val) = true := by
  revert b j
  decide

/-! ## ntermCheckBoundaries -/

theorem checkBoundaries_of_scroll (t : Terminal)
    (hy : t.hchar ≤ (if t.x ≥ t.wchar then t.y + 1 else t.y)) :
    ntermCheckBoundaries t =
      (1, { t with
            x := 0
            y := t.hchar - 1
            buffer := clearLoop (memcpy t.buffer 0 (16 * t.pitch) ((t.hchar - 1) * 16 * t.pitch))
              ((t.hchar - 1) * 16 * t.pitch) t.width t.pitch t.bg.val 16
            scrolls := t.scrolls + 1
            lfbPos := 0 + t.totalSize
            lfbWrites := t.lfbWrites ++
              [{ offset := 0
                 data := readBytes
                   (clearLoop (memcpy t.buffer 0 (16 * t.pitch) ((t.hchar - 1) * 16 * t.pitch))
                     ((t.hchar - 1) * 16 * t.pitch) t.width t.pitch t.bg.val 16) 0 t.totalSize }] }) := by
  unfold ntermCheckBoundaries
  by_cases hx : t.x ≥ t.wchar
  · simp only [hx, if_true] at hy ⊢
    simp [hy, lseek, lfbWrite]
  · simp only [hx, if_false] at hy ⊢
    simp [hy, lseek, lfbWrite]

theorem checkBoundaries_of_noscroll (t : Terminal)
    (hy : (if t.x ≥ t.wchar then t.y + 1 else t.y) < t.hchar) :
    ntermCheckBoundaries t
      = (0, if t.x ≥ t.wchar then { t with x := 0, y := t.y + 1 } else t) := by
  unfold ntermCheckBoundaries
  by_cases hx : t.x ≥ t.wchar
  · simp only [hx, if_true] at hy ⊢
    simp [Nat.not_le.mpr hy]
  · simp only [hx, if_false] at hy ⊢
    simp [Nat.not_le.mpr hy]

theorem scroll_buffer_low (m : Memory) (h w p v k : Nat) (hk : k < (h - 1) * 16 * p) :
    clearLoop (memcpy m 0 (16 * p) ((h - 1) * 16 * p)) ((h - 1) * 16 * p) w p v 16 k
      = m (k + 16 * p) := by
  rw [clearLoop_of_outside _ _ _ _ _ _ _ (fun i _ => Or.inl (by omega))]
  rw [memcpy_apply _ _ _ (Nat.zero_le _), if_pos (by omega)]
  congr 1; omega

theorem scroll_buffer_pad (m : Memory) (h w p v i r : Nat)
    (hr : 4 * w ≤ r) (hrp : r < p) :
    clearLoop (memcpy m 0 (16 * p) ((h - 1) * 16 * p)) ((h - 1) * 16 * p) w p v 16
        ((h - 1) * 16 * p + i * p + r)
      = m ((h - 1) * 16 * p + i * p + r) := by
  rw [clearLoop_of_outside, memcpy_apply _ _ _ (Nat.zero_le _), if_neg (by omega)]
  intro i2 _
  rcases Nat.lt_or_ge i i2 with hlt | hge
  · have hs := mul_stride_le (i + 1) i2 p (by omega)
    rw [Nat.add_mul, Nat.one_mul] at hs
    left; omega
  · have hs := mul_stride_le i2 i p hge
    right; omega

/-- The scroll with the ascending copy for `memcpy`, on a grid of any number of
rows.  With `hchar ≥ 1`, `4 * width ≤ pitch` and the row after column
normalisation at or past `hchar`, (a) every byte at offset
`k < (hchar - 1) * 16 * pitch` equals the byte that was at `k + 16 * pitch`
before the call, (b) in each of the last 16 scanlines the first `width` pixels
equal `bg`, and (c) in those scanlines the bytes from `width * 4` up to `pitch`
keep the value they had before the call. -/
theorem checkBoundaries_scroll_of_ascending_copy (t : Terminal) (hh : 1 ≤ t.hchar)
    (hp : 4 * t.width ≤ t.pitch)
    (hy : t.hchar ≤ (if t.x ≥ t.wchar then t.y + 1 else t.y)) :
    (∀ k, k < (t.hchar - 1) * 16 * t.pitch →
        (ntermCheckBoundaries t).2.buffer k = t.buffer (k + 16 * t.pitch)) ∧
    (∀ i j, i < 16 → j < t.width →
        load32 (ntermCheckBoundaries t).2.buffer
          (((t.hchar - 1) * 16 + i) * t.pitch + j * 4) = t.bg.val) ∧
    (∀ i r, i < 16 → t.width * 4 ≤ r → r < t.pitch →
        (ntermCheckBoundaries t).2.buffer (((t.hchar - 1) * 16 + i) * t.pitch + r)
          = t.buffer (((t.hchar - 1) * 16 + i) * t.pitch + r)) := by
  have _ := hh
  rw [checkBoundaries_of_scroll t hy]
  refine ⟨fun k hk => scroll_buffer_low _ _ _ _ _ _ hk, fun i j hi hj => ?_, fun i r _ hr hrp => ?_⟩
  · have hval : load32 (clearLoop
          (memcpy t.buffer 0 (16 * t.pitch) ((t.hchar - 1) * 16 * t.pitch))
          ((t.hchar - 1) * 16 * t.pitch) t.width t.pitch t.bg.val 16)
        ((t.hchar - 1) * 16 * t.pitch + i * t.pitch + 4 * j) = t.bg.val % 4294967296 :=
      load32_of_bytes _ _ _ (fun r hr => clearLoop_of_inside _ _ _ _ _ _ hp i j r hi hj hr)
    rw [Nat.mod_eq_of_lt t.bg.isLt] at hval
    rw [Nat.add_mul, Nat.mul_comm j 4]
    exact hval
  · rw [Nat.add_mul]
    exact scroll_buffer_pad _ _ _ _ _ _ _ (by omega) hrp

/-- C2: cursor result of `ntermCheckBoundaries` when `hchar ≥ 1`.  With
`(x1, y1)` the cursor after column normalisation: if `y1 ≥ hchar` the call
returns 1 and the cursor is `(0, hchar - 1)`, otherwise it returns 0 and the
cursor is `(x1, y1)`.  It returns 1 exactly when the scroll branch ran (the
ghost counter went up by one, a device write was issued), and then the cursor
is `(0, hchar - 1)`. -/
theorem checkBoundaries_cursor (t : Terminal) (hh : 1 ≤ t.hchar) :
    (t.hchar ≤ (if t.x ≥ t.wchar then t.y + 1 else t.y) →
        (ntermCheckBoundaries t).1 = 1 ∧ (ntermCheckBoundaries t).2.x = 0 ∧
        (ntermCheckBoundaries t).2.y = t.hchar - 1) ∧
    ((if t.x ≥ t.wchar then t.y + 1 else t.y) < t.hchar →
        (ntermCheckBoundaries t).1 = 0 ∧
        (ntermCheckBoundaries t).2.x = (if t.x ≥ t.wchar then 0 else t.x) ∧
        (ntermCheckBoundaries t).2.y = (if t.x ≥ t.wchar then t.y + 1 else t.y)) ∧
    ((ntermCheckBoundaries t).1 = 1 ↔
        (ntermCheckBoundaries t).2.scrolls = t.scrolls + 1) ∧
    ((ntermCheckBoundaries t).1 = 1 ↔
        (ntermCheckBoundaries t).2.lfbWrites.length = t.lfbWrites.length + 1) ∧
    ((ntermCheckBoundaries t).1 = 1 →
        (ntermCheckBoundaries t).2.x = 0 ∧ (ntermCheckBoundaries t).2.y = t.hchar - 1) := by
  have _ := hh
  rcases Nat.lt_or_ge (if t.x ≥ t.wchar then t.y + 1 else t.y) t.hchar with hy | hy
  · rw [checkBoundaries_of_noscroll t hy]
    refine ⟨fun h => absurd hy (Nat.not_lt.mpr h), fun _ => ?_, ?_, ?_, ?_⟩
    · by_cases hx : t.x ≥ t.wchar <;> simp [hx]
    · by_cases hx : t.x ≥ t.wchar <;> simp [hx]
    · by_cases hx : t.x ≥ t.wchar <;> simp [hx]
    · intro h; simp at h
  · rw [checkBoundaries_of_scroll t hy]
    refine ⟨fun _ => ⟨rfl, rfl, rfl⟩, fun h => absurd h (Nat.not_lt.mpr hy), ?_, ?_, ?_⟩
    · simp
    · simp
    · intro _; exact ⟨rfl, rfl⟩

/-- C2, at a concrete state: the cursor is past the end of the bottom row of a
2 x 2 grid, the call returns 1 and the cursor ends at `(0, 1)`. -/
theorem checkBoundaries_cursor_witness :
    1 ≤ scrollState.hchar ∧
    (ntermCheckBoundaries scrollState).1 = 1 ∧ (ntermCheckBoundaries scrollState).2.x = 0 ∧
    (ntermCheckBoundaries scrollState).2.y = 1 :=
  ⟨by decide, (checkBoundaries_cursor scrollState (by decide)).1 (by decide)⟩

/-- C3: device effect of `ntermCheckBoundaries`.  When it returns 1 (it
scrolled) it has issued exactly one device write, at offset 0, of `totalSize`
bytes, holding the first `totalSize` bytes of the mirror buffer as left by the
shift and the clear of the bottom row; when it returns anything else it has
issued no device write and the mirror buffer is unchanged. -/
theorem checkBoundaries_device (t : Terminal) :
    ((ntermCheckBoundaries t).1 = 1 →
        (ntermCheckBoundaries t).2.lfbWrites
          = t.lfbWrites ++
              [{ offset := 0, data := readBytes (ntermCheckBoundaries t).2.buffer 0 t.totalSize }] ∧
        (readBytes (ntermCheckBoundaries t).2.buffer 0 t.totalSize).length = t.totalSize ∧
        (ntermCheckBoundaries t).2.buffer
          = clearLoop (memcpy t.buffer 0 (16 * t.pitch) ((t.hchar - 1) * 16 * t.pitch))
              ((t.hchar - 1) * 16 * t.pitch) t.width t.pitch t.bg.val 16) ∧
    ((ntermCheckBoundaries t).1 ≠ 1 →
        (ntermCheckBoundaries t).2.lfbWrites = t.lfbWrites ∧
        (ntermCheckBoundaries t).2.buffer = t.buffer) := by
  rcases Nat.lt_or_ge (if t.x ≥ t.wchar then t.y + 1 else t.y) t.hchar with hy | hy
  · rw [checkBoundaries_of_noscroll t hy]
    refine ⟨fun h => ?_, fun _ => ?_⟩
    · simp at h
    · by_cases hx : t.x ≥ t.wchar <;> simp [hx]
  · rw [checkBoundaries_of_scroll t hy]
    refine ⟨fun _ => ⟨rfl, ?_, rfl⟩, fun h => ?_⟩
    · simp [readBytes]
    · simp at h

/-- C3, at a concrete state: the scroll of a 2 x 2 grid issues one write of
2304 bytes at offset 0. -/
theorem checkBoundaries_device_witness :
    (ntermCheckBoundaries scrollState).1 = 1 ∧
    (ntermCheckBoundaries scrollState).2.lfbWrites
      = scrollState.lfbWrites ++
          [{ offset := 0
             data := readBytes (ntermCheckBoundaries scrollState).2.buffer 0
               scrollState.totalSize }] ∧
    (readBytes (ntermCheckBoundaries scrollState).2.buffer 0 scrollState.totalSize).length
      = 2304 :=
  ⟨by decide,
    ((checkBoundaries_device scrollState).1 (by decide)).1,
    ((checkBoundaries_device scrollState).1 (by decide)).2.1⟩

/-! ## Cursor -/

theorem cursorLoop_load (m : Memory) (fb w v n i : Nat) (hi : i < n) :
    load32 (cursorLoop m fb w v n) (fb + i * (4 * w)) = v % 4294967296 :=
  load32_of_bytes _ _ _ (fun r hr => cursorLoop_of_inside m fb w v n i r hi hr)

theorem drawCursor_of_off (t : Terminal) (h : t.cursor = false) : ntermDrawCursor t = t := by
  simp [ntermDrawCursor, h]

theorem drawCursor_of_on (t : Terminal) (h : t.cursor = true) :
    ntermDrawCursor t
      = { t with buffer := cursorLoop t.buffer (cellAddr t) t.width t.fg.val 16 } := by
  simp [ntermDrawCursor, h]

/-- C5, evaluated on a blank row whose scanlines carry padding (`width = 16`,
`pitch = 96`, cursor shown at cell `(0, 0)`): the pixel in the leftmost column
of scanline 15 of the cell is not set to `fg`, and the four bytes at offset 64,
which lie in the padding of scanline 0, are set to `fg`. -/
theorem drawCursor_stride_divergence :
    paddedState.cursor = true ∧ 4 * paddedState.width ≤ paddedState.pitch ∧
    load32 (ntermDrawCursor paddedState).buffer
        ((16 * paddedState.y + 15) * paddedState.pitch + 8 * paddedState.x * 4) = 0 ∧
    paddedState.fg.val = 16777215 ∧
    load32 paddedState.buffer 64 = 0 ∧
    load32 (ntermDrawCursor paddedState).buffer 64 = 16777215 := by
  refine ⟨rfl, by decide, ?_, rfl, rfl, ?_⟩ <;> decide

/-- C6: `ntermEraseCursor`.  The 16 pixels at `cellAddr t + i * (4 * width)`,
`i < 16`, are the ones `ntermDrawCursor` sets to `fg` when the cursor flag is
set; `ntermEraseCursor` sets each of them to the value the pixel at column
`8 * x + 7` of scanline `16 * y` had before the call.  Both leave every byte
outside these 16 pixels unchanged, and `ntermEraseCursor` issues no device write. -/
theorem eraseCursor_spec (t : Terminal) :
    (∀ i, i < 16 →
        load32 (ntermEraseCursor t).buffer (cellAddr t + i * (4 * t.width))
          = load32 t.buffer ((16 * t.y) * t.pitch + (8 * t.x + 7) * 4) ∧
        load32 (ntermDrawCursor { t with cursor := true }).buffer
            (cellAddr t + i * (4 * t.width)) = t.fg.val) ∧
    (∀ k, (∀ i, i < 16 →
          k < cellAddr t + i * (4 * t.width) ∨ cellAddr t + i * (4 * t.width) + 4 ≤ k) →
        (ntermEraseCursor t).buffer k = t.buffer k ∧
        (ntermDrawCursor { t with cursor := true }).buffer k = t.buffer k) ∧
    (ntermEraseCursor t).lfbWrites = t.lfbWrites ∧
    (ntermEraseCursor t).lfbPos = t.lfbPos := by
  have haddr : cellAddr t + 7 * 4 = (16 * t.y) * t.pitch + (8 * t.x + 7) * 4 := by
    unfold cellAddr; ring
  refine ⟨fun i hi => ⟨?_, ?_⟩, fun k hk => ⟨?_, ?_⟩, rfl, rfl⟩
  · simp only [ntermEraseCursor]
    rw [cursorLoop_load _ _ _ _ _ _ hi, Nat.mod_eq_of_lt (load32_lt _ _), haddr]
  · rw [drawCursor_of_on _ rfl]
    show load32 (cursorLoop t.buffer (cellAddr t) t.width t.fg.val 16) _ = _
    rw [cursorLoop_load _ _ _ _ _ _ hi, Nat.mod_eq_of_lt t.fg.isLt]
  · exact cursorLoop_of_outside _ _ _ _ _ _ hk
  · rw [drawCursor_of_on _ rfl]
    exact cursorLoop_of_outside _ _ _ _ _ _ hk

/-! ## ntermPutc -/

set_option maxRecDepth 100000 in
/-- C4, evaluated on a blank row whose scanlines carry padding (`width = 16`,
`pitch = 96`, cursor shown) with a blank glyph: the hypotheses of the claim
hold, bit 7 of font row byte 1 is 0, yet after the call the pixel at column 0
of scanline 1 of the cell holds `fg`, which differs from `bg`.  With the cursor
flag off the same pixel holds `bg`. -/
theorem putc_glyph_divergence :
    (blankFont.minGlyph ≤ 65 ∧ 65 ≤ blankFont.maxGlyph) ∧
    paddedState.x + 1 < paddedState.wchar ∧ paddedState.y < paddedState.hchar ∧
    8 * paddedState.wchar ≤ paddedState.width ∧ 4 * paddedState.width ≤ paddedState.pitch ∧
    (blankFont.data (((65 - blankFont.minGlyph) * 16).toNat + 1)).val.testBit (7 - 0) = false ∧
    (ntermPutc blankFont 0 65 paddedState).map
        (fun t => load32 t.buffer
          ((16 * paddedState.y + 1) * paddedState.pitch + (8 * paddedState.x + 0) * 4))
      = some paddedState.fg.val ∧
    paddedState.fg ≠ paddedState.bg ∧
    (ntermPutc blankFont 0 65 { paddedState with cursor := false }).map
        (fun t => load32 t.buffer
          ((16 * paddedState.y + 1) * paddedState.pitch + (8 * paddedState.x + 0) * 4))
      = some paddedState.bg.val := by
  refine ⟨by decide, by decide, by decide, by decide, by decide, by decide, ?_, by decide, ?_⟩
  · rfl
  · rfl

theorem putcPaint_frame (F : Font) (c : Int) (t : Terminal) :
    (putcPaint F c t).x = t.x + 1 ∧ (putcPaint F c t).y = t.y ∧
    (putcPaint F c t).wchar = t.wchar ∧ (putcPaint F c t).hchar = t.hchar ∧
    (putcPaint F c t).width = t.width ∧ (putcPaint F c t).pitch = t.pitch ∧
    (putcPaint F c t).lineSize = t.lineSize ∧ (putcPaint F c t).totalSize = t.totalSize ∧
    (putcPaint F c t).fg = t.fg ∧ (putcPaint F c t).bg = t.bg ∧
    (putcPaint F c t).cursor = t.cursor ∧ (putcPaint F c t).lfbPos = t.lfbPos ∧
    (putcPaint F c t).lfbWrites = t.lfbWrites ∧ (putcPaint F c t).scrolls = t.scrolls :=
  ⟨rfl, rfl, rfl, rfl, rfl, rfl, rfl, rfl, rfl, rfl, rfl, rfl, rfl, rfl⟩

theorem drawCursor_frame (t : Terminal) :
    (ntermDrawCursor t).x = t.x ∧ (ntermDrawCursor t).y = t.y ∧
    (ntermDrawCursor t).wchar = t.wchar ∧ (ntermDrawCursor t).hchar = t.hchar ∧
    (ntermDrawCursor t).width = t.width ∧ (ntermDrawCursor t).pitch = t.pitch ∧
    (ntermDrawCursor t).lineSize = t.lineSize ∧ (ntermDrawCursor t).totalSize = t.totalSize ∧
    (ntermDrawCursor t).fg = t.fg ∧ (ntermDrawCursor t).bg = t.bg ∧
    (ntermDrawCursor t).cursor = t.cursor ∧ (ntermDrawCursor t).lfbPos = t.lfbPos ∧
    (ntermDrawCursor t).lfbWrites = t.lfbWrites ∧ (ntermDrawCursor t).scrolls = t.scrolls := by
  cases h : t.cursor
  · rw [drawCursor_of_off t h]; simp [h]
  · rw [drawCursor_of_on t h]; simp [h]

theorem putcGlyph_of_advance (F : Font) (c : Int) (t : Terminal)
    (hx : t.x + 1 < t.wchar) (hy : t.y < t.hchar) :
    ∃ b, putcGlyph F c t =
      { t with
        x := t.x + 1
        buffer := b
        lfbPos := (t.y * 16) * t.pitch + t.lineSize
        lfbWrites := t.lfbWrites ++
          [{ offset := (t.y * 16) * t.pitch
             data := readBytes b ((t.y * 16) * t.pitch) t.lineSize }] } := by
  refine ⟨(ntermDrawCursor (putcPaint F c t)).buffer, ?_⟩
  have hns : ntermCheckBoundaries (putcPaint F c t) = (0, putcPaint F c t) := by
    rw [checkBoundaries_of_noscroll]
    · rw [if_neg]
      show ¬ (t.x + 1 ≥ t.wchar)
      omega
    · rw [if_neg]
      · exact hy
      · show ¬ (t.x + 1 ≥ t.wchar)
        omega
  unfold putcGlyph putcFinish
  simp only [hns]
  rw [if_neg (by decide)]
  rcases Bool.eq_false_or_eq_true t.cursor with hc | hc
  · rw [drawCursor_of_on _ (by exact hc)]
    rfl
  · rw [drawCursor_of_off _ (by exact hc)]
    rfl

theorem putcGlyph_of_wrap (F : Font) (c : Int) (t : Terminal)
    (hx : t.wchar ≤ t.x + 1) (hy : t.y + 1 < t.hchar) :
    ∃ b, putcGlyph F c t =
      { t with
        x := 0
        y := t.y + 1
        buffer := b
        lfbPos := (t.y * 16) * t.pitch + t.lineSize
        lfbWrites := t.lfbWrites ++
          [{ offset := (t.y * 16) * t.pitch
             data := readBytes b ((t.y * 16) * t.pitch) t.lineSize }] } := by
  refine ⟨(ntermDrawCursor { putcPaint F c t with x := 0, y := t.y + 1 }).buffer, ?_⟩
  have hns : ntermCheckBoundaries (putcPaint F c t)
      = (0, { putcPaint F c t with x := 0, y := t.y + 1 }) := by
    rw [checkBoundaries_of_noscroll]
    · rw [if_pos]
      · rfl
      · exact hx
    · rw [if_pos]
      · exact hy
      · exact hx
  unfold putcGlyph putcFinish
  simp only [hns]
  rw [if_neg (by decide)]
  rcases Bool.eq_false_or_eq_true t.cursor with hc | hc
  · rw [drawCursor_of_on _ (by exact hc)]
    rfl
  · rw [drawCursor_of_off _ (by exact hc)]
    rfl

theorem putcGlyph_of_scroll (F : Font) (c : Int) (t : Terminal)
    (hx : t.wchar ≤ t.x + 1) (hy : t.hchar ≤ t.y + 1) :
    ∃ b, putcGlyph F c t =
      { t with
        x := 0
        y := t.hchar - 1
        buffer := b
        scrolls := t.scrolls + 1
        lfbPos := 0 + t.totalSize
        lfbWrites := t.lfbWrites ++ [{ offset := 0, data := readBytes b 0 t.totalSize }] } := by
  have hs := checkBoundaries_of_scroll (putcPaint F c t)
    (by rw [if_pos]
        · exact hy
        · exact hx)
  refine ⟨(ntermCheckBoundaries (putcPaint F c t)).2.buffer, ?_⟩
  unfold putcGlyph putcFinish
  rw [hs]
  rw [if_pos (show (1 : Nat) ≠ 0 by decide)]
  rfl

theorem putc_of_printable (F : Font) (hq : F.minGlyph ≤ 63 ∧ 63 ≤ F.maxGlyph)
    (fuel : Nat) (hf : 1 ≤ fuel) (c : Int) (hc : c ≠ 10 ∧ c ≠ 13) (t : Terminal) :
    ntermPutc F fuel c t
      = some (putcGlyph F (glyphFor F c) t) := by
  unfold glyphFor
  obtain ⟨n, rfl⟩ : ∃ n, fuel = n + 1 := ⟨fuel - 1, by omega⟩
  have h63 : ¬ ((63 : Int) < F.minGlyph ∨ (63 : Int) > F.maxGlyph) := by omega
  by_cases ho : c < F.minGlyph ∨ c > F.maxGlyph
  · rw [if_pos ho]
    unfold ntermPutc
    rw [if_neg hc.1, if_neg hc.2, if_pos ho]
    show ntermPutc F n 63 t = _
    unfold ntermPutc
    rw [if_neg (by decide), if_neg (by decide), if_neg h63]
  · rw [if_neg ho]
    unfold ntermPutc
    rw [if_neg hc.1, if_neg hc.2, if_neg ho]

/-! ## Sequences of characters -/

theorem sameGeometry_refl (t : Terminal) : SameGeometry t t :=
  ⟨rfl, rfl, rfl, rfl, rfl, rfl, rfl, rfl, rfl⟩

theorem sameGeometry_trans {t1 t2 t3 : Terminal} (h12 : SameGeometry t1 t2)
    (h23 : SameGeometry t2 t3) : SameGeometry t1 t3 := by
  unfold SameGeometry at *
  obtain ⟨a1, a2, a3, a4, a5, a6, a7, a8, a9⟩ := h12
  obtain ⟨b1, b2, b3, b4, b5, b6, b7, b8, b9⟩ := h23
  exact ⟨b1.trans a1, b2.trans a2, b3.trans a3, b4.trans a4, b5.trans a5, b6.trans a6,
    b7.trans a7, b8.trans a8, b9.trans a9⟩

theorem putcAll_append (F : Font) (fuel : Nat) (cs1 cs2 : List Int) (t : Terminal) :
    putcAll F fuel (cs1 ++ cs2) t = (putcAll F fuel cs1 t).bind (putcAll F fuel cs2) := by
  induction cs1 generalizing t with
  | nil => rfl
  | cons c cs ih =>
    simp only [List.cons_append, putcAll]
    cases h : ntermPutc F fuel c t with
    | none => rfl
    | some t1 =>
      simp only [Option.some_bind]
      exact ih t1

theorem writesOfSize_append (n : Nat) (ws1 ws2 : List DeviceWrite) :
    writesOfSize n (ws1 ++ ws2) = writesOfSize n ws1 + writesOfSize n ws2 := by
  unfold writesOfSize
  exact List.countP_append _ _ _

theorem writesOfSize_of_all_ne (n : Nat) (ws : List DeviceWrite)
    (h : ∀ w ∈ ws, w.data.length ≠ n) : writesOfSize n ws = 0 := by
  unfold writesOfSize
  rw [List.countP_eq_zero]
  intro w hw
  simpa using h w hw

/-- A printable character printed with room left in the row. -/
theorem putc_advance (F : Font) (hq : F.minGlyph ≤ 63 ∧ 63 ≤ F.maxGlyph)
    (fuel : Nat) (hf : 1 ≤ fuel) (c : Int) (hc : c ≠ 10 ∧ c ≠ 13) (t : Terminal)
    (hx : t.x + 1 < t.wchar) (hy : t.y < t.hchar) :
    ∃ t1, ntermPutc F fuel c t = some t1 ∧ t1.x = t.x + 1 ∧ t1.y = t.y ∧
      t1.scrolls = t.scrolls ∧ SameGeometry t t1 ∧
      ∃ w, t1.lfbWrites = t.lfbWrites ++ [w] ∧ w.offset = (t.y * 16) * t.pitch ∧
        w.data.length = t.lineSize := by
  obtain ⟨b, hb⟩ := putcGlyph_of_advance F (glyphFor F c) t hx hy
  have hstep := putc_of_printable F hq fuel hf c hc t
  rw [hb] at hstep
  exact ⟨_, hstep, rfl, rfl, rfl, sameGeometry_refl _, _, rfl, rfl, by simp [readBytes]⟩

/-- A printable character printed in the last column of a row that is not the bottom row. -/
theorem putc_wrap (F : Font) (hq : F.minGlyph ≤ 63 ∧ 63 ≤ F.maxGlyph)
    (fuel : Nat) (hf : 1 ≤ fuel) (c : Int) (hc : c ≠ 10 ∧ c ≠ 13) (t : Terminal)
    (hx : t.wchar ≤ t.x + 1) (hy : t.y + 1 < t.hchar) :
    ∃ t1, ntermPutc F fuel c t = some t1 ∧ t1.x = 0 ∧ t1.y = t.y + 1 ∧
      t1.scrolls = t.scrolls ∧ SameGeometry t t1 ∧
      ∃ w, t1.lfbWrites = t.lfbWrites ++ [w] ∧ w.offset = (t.y * 16) * t.pitch ∧
        w.data.length = t.lineSize := by
  obtain ⟨b, hb⟩ := putcGlyph_of_wrap F (glyphFor F c) t hx hy
  have hstep := putc_of_printable F hq fuel hf c hc t
  rw [hb] at hstep
  exact ⟨_, hstep, rfl, rfl, rfl, sameGeometry_refl _, _, rfl, rfl, by simp [readBytes]⟩

/-- A printable character printed in the last column of the bottom row. -/
theorem putc_scroll (F : Font) (hq : F.minGlyph ≤ 63 ∧ 63 ≤ F.maxGlyph)
    (fuel : Nat) (hf : 1 ≤ fuel) (c : Int) (hc : c ≠ 10 ∧ c ≠ 13) (t : Terminal)
    (hx : t.wchar ≤ t.x + 1) (hy : t.hchar ≤ t.y + 1) :
    ∃ t1, ntermPutc F fuel c t = some t1 ∧ t1.x = 0 ∧ t1.y = t.hchar - 1 ∧
      t1.scrolls = t.scrolls + 1 ∧ SameGeometry t t1 ∧
      ∃ w, t1.lfbWrites = t.lfbWrites ++ [w] ∧ w.offset = 0 ∧
        w.data.length = t.totalSize := by
  obtain ⟨b, hb⟩ := putcGlyph_of_scroll F (glyphFor F c) t hx hy
  have hstep := putc_of_printable F hq fuel hf c hc t
  rw [hb] at hstep
  exact ⟨_, hstep, rfl, rfl, rfl, sameGeometry_refl _, _, rfl, rfl, by simp [readBytes]⟩

/-- Fewer characters than fit in the rest of the row: the column grows by their
number, nothing else about the cursor changes, and each character issued one
row flush. -/
theorem putcAll_within_row (F : Font) (hq : F.minGlyph ≤ 63 ∧ 63 ≤ F.maxGlyph)
    (fuel : Nat) (hf : 1 ≤ fuel) (cs : List Int) :
    ∀ t : Terminal, (∀ c ∈ cs, c ≠ 10 ∧ c ≠ 13) → t.x + cs.length < t.wchar → t.y < t.hchar →
      ∃ t2, putcAll F fuel cs t = some t2 ∧ t2.x = t.x + cs.length ∧ t2.y = t.y ∧
        t2.scrolls = t.scrolls ∧ SameGeometry t t2 ∧
        ∃ ws, t2.lfbWrites = t.lfbWrites ++ ws ∧ ws.length = cs.length ∧
          ∀ w ∈ ws, w.offset = (t.y * 16) * t.pitch ∧ w.data.length = t.lineSize := by
  induction cs with
  | nil =>
    intro t _ _ _
    exact ⟨t, rfl, rfl, rfl, rfl, sameGeometry_refl t, [], by simp, rfl, by simp⟩
  | cons c cs ih =>
    intro t hp hx hy
    simp only [List.length_cons] at hx
    obtain ⟨t1, e1, x1, y1, s1, g1, w, w1, w2, w3⟩ :=
      putc_advance F hq fuel hf c (hp c (List.mem_cons_self _ _)) t (by omega) hy
    have g1' := g1
    obtain ⟨gw, gh, -, gp, gl, -⟩ := g1'
    obtain ⟨t2, h1, h2, h3, h4, h5, ws, h6, h7, h8⟩ :=
      ih t1 (fun d hd => hp d (List.mem_cons_of_mem _ hd)) (by omega) (by omega)
    refine ⟨t2, ?_, ?_, by omega, by omega, sameGeometry_trans g1 h5, w :: ws, ?_, ?_, ?_⟩
    · simp only [putcAll, e1, Option.some_bind]
      exact h1
    · simp only [List.length_cons]
      omega
    · rw [h6, w1]
      simp
    · simp [h7]
    · intro v hv
      rcases List.mem_cons.mp hv with rfl | hv
      · exact ⟨w2, w3⟩
      · have := h8 v hv
        rw [y1, gp, gl] at this
        exact this

/-- The characters that fill the rest of a row which is not the bottom row: the
cursor ends at the start of the next row and no scroll takes place. -/
theorem putcAll_row_wrap (F : Font) (hq : F.minGlyph ≤ 63 ∧ 63 ≤ F.maxGlyph)
    (fuel : Nat) (hf : 1 ≤ fuel) (cs : List Int) (t : Terminal)
    (hp : ∀ c ∈ cs, c ≠ 10 ∧ c ≠ 13) (hne : cs ≠ []) (hx : t.x + cs.length = t.wchar)
    (hy : t.y + 1 < t.hchar) :
    ∃ t2, putcAll F fuel cs t = some t2 ∧ t2.x = 0 ∧ t2.y = t.y + 1 ∧
      t2.scrolls = t.scrolls ∧ SameGeometry t t2 ∧
      ∃ ws, t2.lfbWrites = t.lfbWrites ++ ws ∧ ws.length = cs.length ∧
        ∀ w ∈ ws, w.offset = (t.y * 16) * t.pitch ∧ w.data.length = t.lineSize := by
  rcases List.eq_nil_or_concat' cs with h | ⟨cs1, c, rfl⟩
  · exact absurd h hne
  simp only [List.length_append, List.length_singleton] at hx
  obtain ⟨t1, e1, x1, y1, s1, g1, ws, w1, w2, w3⟩ :=
    putcAll_within_row F hq fuel hf cs1 t
      (fun d hd => hp d (List.mem_append_left _ hd)) (by omega) (by omega)
  have g1' := g1
  obtain ⟨gw, gh, -, gp, gl, -⟩ := g1'
  obtain ⟨t2, e2, x2, y2, s2, g2, w, v1, v2, v3⟩ :=
    putc_wrap F hq fuel hf c (hp c (List.mem_append_right _ (List.mem_singleton_self c))) t1
      (by omega) (by omega)
  refine ⟨t2, ?_, x2, by omega, by omega, sameGeometry_trans g1 g2, ws ++ [w], ?_, ?_, ?_⟩
  · rw [putcAll_append, e1]
    simp only [Option.some_bind, putcAll, e2]
  · rw [v1, w1, List.append_assoc]
  · simp [w2]
  · intro v hv
    rcases List.mem_append.mp hv with hv | hv
    · exact w3 v hv
    · rw [List.mem_singleton] at hv
      subst hv
      rw [v2, v3, y1, gp, gl]
      exact ⟨rfl, rfl⟩

/-- The characters that fill the rest of the bottom row: the last of them
scrolls, once, and the cursor ends at the start of the bottom row. -/
theorem putcAll_row_scroll (F : Font) (hq : F.minGlyph ≤ 63 ∧ 63 ≤ F.maxGlyph)
    (fuel : Nat) (hf : 1 ≤ fuel) (cs : List Int) (t : Terminal)
    (hp : ∀ c ∈ cs, c ≠ 10 ∧ c ≠ 13) (hne : cs ≠ []) (hx : t.x + cs.length = t.wchar)
    (hy : t.y + 1 = t.hchar) :
    ∃ t2, putcAll F fuel cs t = some t2 ∧ t2.x = 0 ∧ t2.y = t.y ∧
      t2.scrolls = t.scrolls + 1 ∧ SameGeometry t t2 ∧
      ∃ ws, t2.lfbWrites = t.lfbWrites ++ ws ∧ ws.length = cs.length ∧
        (t.lineSize ≠ t.totalSize → writesOfSize t.totalSize ws = 1) := by
  rcases List.eq_nil_or_concat' cs with h | ⟨cs1, c, rfl⟩
  · exact absurd h hne
  simp only [List.length_append, List.length_singleton] at hx
  obtain ⟨t1, e1, x1, y1, s1, g1, ws, w1, w2, w3⟩ :=
    putcAll_within_row F hq fuel hf cs1 t
      (fun d hd => hp d (List.mem_append_left _ hd)) (by omega) (by omega)
  have g1' := g1
  obtain ⟨gw, gh, -, gp, gl, gt, -⟩ := g1'
  obtain ⟨t2, e2, x2, y2, s2, g2, w, v1, v2, v3⟩ :=
    putc_scroll F hq fuel hf c (hp c (List.mem_append_right _ (List.mem_singleton_self c))) t1
      (by omega) (by omega)
  refine ⟨t2, ?_, x2, by omega, by omega, sameGeometry_trans g1 g2, ws ++ [w], ?_, ?_, ?_⟩
  · rw [putcAll_append, e1]
    simp only [Option.some_bind, putcAll, e2]
  · rw [v1, w1, List.append_assoc]
  · simp [w2]
  · intro hne2
    rw [writesOfSize_append, writesOfSize_of_all_ne _ ws
      (fun v hv => by rw [(w3 v hv).2]; exact hne2)]
    simp [writesOfSize, v3, gt]

/-- From the start of row `y`, the characters that fill every row from `y` to
the bottom one: exactly one scroll, caused by the last character. -/
theorem putcAll_rows (F : Font) (hq : F.minGlyph ≤ 63 ∧ 63 ≤ F.maxGlyph)
    (fuel : Nat) (hf : 1 ≤ fuel) (d : Nat) :
    ∀ (cs : List Int) (t : Terminal), (∀ c ∈ cs, c ≠ 10 ∧ c ≠ 13) → t.x = 0 → 1 ≤ t.wchar →
      t.y + d + 1 = t.hchar → cs.length = (d + 1) * t.wchar →
      ∃ t2, putcAll F fuel cs t = some t2 ∧ t2.x = 0 ∧ t2.y + 1 = t.hchar ∧
        t2.scrolls = t.scrolls + 1 ∧ SameGeometry t t2 ∧
        ∃ ws, t2.lfbWrites = t.lfbWrites ++ ws ∧ ws.length = cs.length ∧
          (t.lineSize ≠ t.totalSize → writesOfSize t.totalSize ws = 1) := by
  induction d with
  | zero =>
    intro cs t hp hx hw hy hn
    have hne : cs ≠ [] := by
      intro h
      rw [h] at hn
      simp at hn
      omega
    obtain ⟨t2, e, x2, y2, s2, g2, ws, w1, w2, w3⟩ :=
      putcAll_row_scroll F hq fuel hf cs t hp hne (by omega) (by omega)
    exact ⟨t2, e, x2, by omega, s2, g2, ws, w1, w2, w3⟩
  | succ d ih =>
    intro cs t hp hx hw hy hn
    have hlen : cs.length = t.wchar + (d + 1) * t.wchar := by
      rw [hn, Nat.add_mul (d + 1) 1, Nat.one_mul, Nat.add_comm]
    have h1len : (cs.take t.wchar).length = t.wchar := by
      rw [List.length_take]
      omega
    have h2len : (cs.drop t.wchar).length = (d + 1) * t.wchar := by
      rw [List.length_drop]
      omega
    have hne : cs.take t.wchar ≠ [] := by
      intro h
      rw [h] at h1len
      simp at h1len
      omega
    obtain ⟨t1, e1, x1, y1, s1, g1, ws1, a1, a2, a3⟩ :=
      putcAll_row_wrap F hq fuel hf (cs.take t.wchar) t
        (fun c hc => hp c (List.mem_of_mem_take hc)) hne (by omega) (by omega)
    have g1' := g1
    obtain ⟨gw, gh, -, gp, gl, gt, -⟩ := g1'
    obtain ⟨t2, e2, x2, y2, s2, g2, ws2, b1, b2, b3⟩ :=
      ih (cs.drop t.wchar) t1 (fun c hc => hp c (List.mem_of_mem_drop hc)) x1 (by omega)
        (by omega) (by rw [h2len, gw])
    refine ⟨t2, ?_, x2, by omega, by omega, sameGeometry_trans g1 g2, ws1 ++ ws2, ?_, ?_, ?_⟩
    · rw [← List.take_append_drop t.wchar cs, putcAll_append, e1]
      exact e2
    · rw [b1, a1, List.append_assoc]
    · rw [List.length_append, a2, b2, h1len, h2len, hlen]
    · intro hne2
      rw [writesOfSize_append, writesOfSize_of_all_ne _ ws1
        (fun v hv => by rw [(a3 v hv).2]; exact hne2)]
      rw [gl, gt] at b3
      rw [b3 hne2]

/-! ## Glyph pixels -/

/-- After the paint phase of `ntermPutc` every pixel of the cursor cell holds
the glyph, provided a scanline is at least as long as a cell is wide. -/
theorem putcPaint_pixel (F : Font) (c : Int) (t : Terminal) (hp : 32 ≤ t.pitch)
    (i j : Nat) (hi : i < 16) (hj : j < 8) :
    load32 (putcPaint F c t).buffer ((16 * t.y + i) * t.pitch + (8 * t.x + j) * 4)
      = if (F.data (((c - F.minGlyph) * 16).toNat + i)).val.testBit (7 - j) = true
        then t.fg.val else t.bg.val := by
  have haddr : (16 * t.y + i) * t.pitch + (8 * t.x + j) * 4
      = cellAddr t + i * t.pitch + 4 * j := by
    unfold cellAddr; ring
  have hbuf : (putcPaint F c t).buffer
      = glyphLoop F.data ((c - F.minGlyph) * 16).toNat (ntermEraseCursor t).buffer (cellAddr t)
          t.pitch t.fg.val t.bg.val 16 := rfl
  rw [haddr, hbuf]
  rw [load32_of_bytes _ _ _
    (fun r hr => glyphLoop_of_inside F.data _ _ _ _ _ _ 16 hp i j r hi hj hr)]
  have hbit := shl8_bit (F.data (((c - F.minGlyph) * 16).toNat + i)) ⟨j, hj⟩
  by_cases hb : (F.data (((c - F.minGlyph) * 16).toNat + i)).val.testBit (7 - j) = true
  · rw [if_pos (hbit.mpr hb), if_pos hb, Nat.mod_eq_of_lt t.fg.isLt]
  · rw [if_neg (fun h => hb (hbit.mp h)), if_neg hb, Nat.mod_eq_of_lt t.bg.isLt]

/-! ## The painted cell after the whole call -/

theorem putcGlyph_buffer_of_advance (F : Font) (c : Int) (t : Terminal)
    (hx : t.x + 1 < t.wchar) (hy : t.y < t.hchar) :
    (putcGlyph F c t).buffer = (ntermDrawCursor (putcPaint F c t)).buffer := by
  have hns : ntermCheckBoundaries (putcPaint F c t) = (0, putcPaint F c t) := by
    rw [checkBoundaries_of_noscroll]
    · rw [if_neg]
      show ¬ (t.x + 1 ≥ t.wchar)
      omega
    · rw [if_neg]
      · exact hy
      · show ¬ (t.x + 1 ≥ t.wchar)
        omega
  unfold putcGlyph putcFinish
  simp only [hns]
  rw [if_neg (by decide)]
  rfl

/-- With the cursor flag off, a character printed with room left in its row
leaves its glyph in all 8 x 16 pixels of the cell. -/
theorem putcGlyph_pixel_of_cursor_off (F : Font) (c : Int) (t : Terminal)
    (hc : t.cursor = false) (hx : t.x + 1 < t.wchar) (hy : t.y < t.hchar)
    (hp : 32 ≤ t.pitch) (i j : Nat) (hi : i < 16) (hj : j < 8) :
    load32 (putcGlyph F c t).buffer ((16 * t.y + i) * t.pitch + (8 * t.x + j) * 4)
      = if (F.data (((c - F.minGlyph) * 16).toNat + i)).val.testBit (7 - j) = true
        then t.fg.val else t.bg.val := by
  rw [putcGlyph_buffer_of_advance F c t hx hy, drawCursor_of_off _ (by exact hc)]
  exact putcPaint_pixel F c t hp i j hi hj

/-- With scanlines that carry no padding (`pitch = 4 * width`), a character
printed with room left in its row leaves its glyph in all 8 x 16 pixels of the
cell, cursor flag on or off. -/
theorem putcGlyph_pixel_of_unpadded (F : Font) (c : Int) (t : Terminal)
    (hx : t.x + 1 < t.wchar) (hy : t.y < t.hchar) (hw : 8 * t.wchar ≤ t.width)
    (hp : t.pitch = 4 * t.width) (i j : Nat) (hi : i < 16) (hj : j < 8) :
    load32 (putcGlyph F c t).buffer ((16 * t.y + i) * t.pitch + (8 * t.x + j) * 4)
      = if (F.data (((c - F.minGlyph) * 16).toNat + i)).val.testBit (7 - j) = true
        then t.fg.val else t.bg.val := by
  rw [putcGlyph_buffer_of_advance F c t hx hy]
  rcases Bool.eq_false_or_eq_true t.cursor with hc | hc
  · rw [drawCursor_of_on _ (by exact hc), ← putcPaint_pixel F c t (by omega) i j hi hj]
    apply load32_congr
    intro r hr
    show cursorLoop (putcPaint F c t).buffer (cellAddr (putcPaint F c t)) t.width t.fg.val 16 _
      = _
    apply cursorLoop_of_outside
    intro i2 _
    have hcell : cellAddr (putcPaint F c t) = (t.y * 16) * t.pitch + ((t.x + 1) * 8) * 4 := rfl
    have haddr : (16 * t.y + i) * t.pitch + (8 * t.x + j) * 4
        = (t.y * 16) * t.pitch + i * (4 * t.width) + 32 * t.x + 4 * j := by
      rw [hp]; ring
    rw [hcell, haddr]
    rcases Nat.lt_or_ge i2 i with hlt | hge
    · have hs := mul_stride_le (i2 + 1) i (4 * t.width) (by omega)
      rw [Nat.add_mul, Nat.one_mul] at hs
      right; omega
    · have hs := mul_stride_le i i2 (4 * t.width) hge
      left; omega
  · rw [drawCursor_of_off _ (by exact hc)]
    exact putcPaint_pixel F c t (by omega) i j hi hj

/-! ## Printing a line, wrapping and filling the grid -/

set_option maxRecDepth 100000 in
/-- C7 as stated fails on a grid of a single row, where a row flush is as long
as the whole buffer (`lineSize = totalSize = 1024`): one character printed at
`(0, 0)` of a row of two cells leaves the cursor at column 1 without a scroll,
and the write it issued has `totalSize` bytes. -/
theorem putcAll_short_line_counterexample :
    singleRowState.x = 0 ∧ singleRowState.y < singleRowState.hchar ∧
    [(65 : Int)].length < singleRowState.wchar ∧ (65 : Int) ≠ 10 ∧ (65 : Int) ≠ 13 ∧
    (putcAll blankFont 1 [65] singleRowState).map
        (fun t => (t.x, t.y, t.scrolls, writesOfSize singleRowState.totalSize t.lfbWrites))
      = some (1, 0, 0, 1) := by
  refine ⟨rfl, by decide, by decide, by decide, by decide, ?_⟩
  rfl

/-- C7 (amended): from column 0 of a row `y < hchar`, printing `n < wchar`
printable characters (none of them newline or carriage return, inside or
outside the glyph range, `'?'` having a glyph) leaves the cursor at column `n`
of row `y` without any scroll: `ntermCheckBoundaries` never returned 1, and the
device writes issued are exactly `n` row flushes of `lineSize` bytes at offset
`16 * y * pitch`, none of which has `totalSize` bytes unless `lineSize = totalSize`. -/
theorem putcAll_short_line (F : Font) (hq : F.minGlyph ≤ 63 ∧ 63 ≤ F.maxGlyph)
    (fuel : Nat) (hf : 1 ≤ fuel) (t : Terminal) (hx : t.x = 0) (hy : t.y < t.hchar)
    (cs : List Int) (hp : ∀ c ∈ cs, c ≠ 10 ∧ c ≠ 13) (hn : cs.length < t.wchar) :
    ∃ t2, putcAll F fuel cs t = some t2 ∧ t2.x = cs.length ∧ t2.y = t.y ∧
      t2.scrolls = t.scrolls ∧
      ∃ ws, t2.lfbWrites = t.lfbWrites ++ ws ∧ ws.length = cs.length ∧
        (∀ w ∈ ws, w.offset = (t.y * 16) * t.pitch ∧ w.data.length = t.lineSize) ∧
        (t.lineSize ≠ t.totalSize → writesOfSize t.totalSize ws = 0) := by
  obtain ⟨t2, e, x2, y2, s2, -, ws, w1, w2, w3⟩ :=
    putcAll_within_row F hq fuel hf cs t hp (by omega) hy
  refine ⟨t2, e, by omega, y2, s2, ws, w1, w2, w3, fun hne => ?_⟩
  exact writesOfSize_of_all_ne _ ws (fun v hv => by rw [(w3 v hv).2]; exact hne)

/-- C7 (amended), at a concrete input: one character, outside the glyph range,
printed at `(0, 0)` of a 2 x 2 grid. -/
theorem putcAll_short_line_witness :
    (blankFont.minGlyph ≤ 63 ∧ 63 ≤ blankFont.maxGlyph) ∧ 1 ≤ 1 ∧ gridState.x = 0 ∧
    gridState.y < gridState.hchar ∧ (∀ c ∈ [(200 : Int)], c ≠ 10 ∧ c ≠ 13) ∧
    [(200 : Int)].length < gridState.wchar ∧
    ∃ t2, putcAll blankFont 1 [200] gridState = some t2 ∧ t2.x = [(200 : Int)].length ∧
      t2.y = gridState.y ∧ t2.scrolls = gridState.scrolls ∧
      ∃ ws, t2.lfbWrites = gridState.lfbWrites ++ ws ∧ ws.length = [(200 : Int)].length ∧
        (∀ w ∈ ws, w.offset = (gridState.y * 16) * gridState.pitch ∧
          w.data.length = gridState.lineSize) ∧
        (gridState.lineSize ≠ gridState.totalSize → writesOfSize gridState.totalSize ws = 0) :=
  ⟨by decide, by decide, rfl, by decide, by decide, by decide,
    putcAll_short_line blankFont (by decide) 1 (by decide) gridState rfl (by decide)
      [200] (by decide) (by decide)⟩

/-- C8: line wrap.  From column 0 of a row `y` with `y + 1 < hchar` and
`wchar ≥ 1`, after exactly `wchar` printable characters no scroll has occurred
and the cursor is at column 0 of row `y + 1`; the next printable character `c`
is painted there: its glyph loop starts at the top left pixel of cell
`(0, y + 1)`, and once painted the 8 x 16 pixels of that cell hold its glyph
(for a scanline of at least 32 bytes). -/
theorem putcAll_line_wrap (F : Font) (hq : F.minGlyph ≤ 63 ∧ 63 ≤ F.maxGlyph)
    (fuel : Nat) (hf : 1 ≤ fuel) (t : Terminal) (hx : t.x = 0) (hy : t.y + 1 < t.hchar)
    (hw : 1 ≤ t.wchar) (cs : List Int) (hp : ∀ c ∈ cs, c ≠ 10 ∧ c ≠ 13)
    (hn : cs.length = t.wchar) (c : Int) (hc : c ≠ 10 ∧ c ≠ 13) :
    ∃ t2, putcAll F fuel cs t = some t2 ∧ t2.scrolls = t.scrolls ∧ t2.x = 0 ∧
      t2.y = t.y + 1 ∧
      ntermPutc F fuel c t2 = some (putcGlyph F (glyphFor F c) t2) ∧
      cellAddr (ntermEraseCursor t2) = (16 * (t.y + 1)) * t.pitch + (8 * 0) * 4 ∧
      (32 ≤ t.pitch → ∀ i j, i < 16 → j < 8 →
        load32 (putcPaint F (glyphFor F c) t2).buffer
            ((16 * (t.y + 1) + i) * t.pitch + (8 * 0 + j) * 4)
          = if (F.data (((glyphFor F c - F.minGlyph) * 16).toNat + i)).val.testBit (7 - j) = true
            then t.fg.val else t.bg.val) := by
  have hne : cs ≠ [] := by
    intro h
    rw [h] at hn
    simp at hn
    omega
  obtain ⟨t2, e, x2, y2, s2, g2, -⟩ :=
    putcAll_row_wrap F hq fuel hf cs t hp hne (by omega) hy
  obtain ⟨-, -, -, gp, -, -, gf, gb, -⟩ := g2
  refine ⟨t2, e, s2, x2, y2, putc_of_printable F hq fuel hf c hc t2, ?_, fun h32 i j hi hj => ?_⟩
  · show (t2.y * 16) * t2.pitch + (t2.x * 8) * 4 = _
    rw [x2, y2, gp]
    ring
  · have h := putcPaint_pixel F (glyphFor F c) t2 (by omega) i j hi hj
    rw [x2, y2, gp, gf, gb] at h
    exact h

/-- C8, at a concrete input: two characters printed from `(0, 0)` of a 2 x 2
grid leave the cursor at `(0, 1)` without a scroll. -/
theorem putcAll_line_wrap_witness :
    (blankFont.minGlyph ≤ 63 ∧ 63 ≤ blankFont.maxGlyph) ∧ 1 ≤ 1 ∧ gridState.x = 0 ∧
    gridState.y + 1 < gridState.hchar ∧ 1 ≤ gridState.wchar ∧
    (∀ c ∈ [(65 : Int), 200], c ≠ 10 ∧ c ≠ 13) ∧
    [(65 : Int), 200].length = gridState.wchar ∧ ((66 : Int) ≠ 10 ∧ (66 : Int) ≠ 13) ∧
    ∃ t2, putcAll blankFont 1 [65, 200] gridState = some t2 ∧
      t2.scrolls = gridState.scrolls ∧ t2.x = 0 ∧ t2.y = gridState.y + 1 :=
  ⟨by decide, by decide, rfl, by decide, by decide, by decide, by decide, by decide,
    (putcAll_line_wrap blankFont (by decide) 1 (by decide) gridState rfl (by decide)
      (by decide) [65, 200] (by decide) (by decide) 66 (by decide)).imp
      (fun _ h => ⟨h.1, h.2.1, h.2.2.1, h.2.2.2.1⟩)⟩

set_option maxRecDepth 100000 in
/-- C9 as stated fails in two ways.  On a grid of one cell (`wchar = 1`,
`hchar = 1`) printing `hchar * wchar + 1 = 2` characters scrolls twice, the
second character wrapping at once.  On a single row of two cells, where
`lineSize = totalSize`, printing 3 characters scrolls once but issues three
writes of `totalSize` bytes. -/
theorem putcAll_fill_grid_counterexample :
    (1 ≤ singleCellState.wchar ∧ 1 ≤ singleCellState.hchar ∧
      singleCellState.x = 0 ∧ singleCellState.y = 0 ∧
      [(65 : Int), 66].length = singleCellState.hchar * singleCellState.wchar + 1 ∧
      (putcAll blankFont 1 [65, 66] singleCellState).map (fun t => t.scrolls) = some 2) ∧
    (1 ≤ singleRowState.wchar ∧ 1 ≤ singleRowState.hchar ∧
      singleRowState.x = 0 ∧ singleRowState.y = 0 ∧
      [(65 : Int), 66, 67].length = singleRowState.hchar * singleRowState.wchar + 1 ∧
      (putcAll blankFont 1 [65, 66, 67] singleRowState).map
          (fun t => (t.scrolls, writesOfSize singleRowState.totalSize t.lfbWrites))
        = some (1, 3)) := by
  refine ⟨⟨by decide, by decide, rfl, rfl, by decide, ?_⟩,
    ⟨by decide, by decide, rfl, rfl, by decide, ?_⟩⟩
  · rfl
  · rfl

/-- C9 (amended): on a grid with `wchar ≥ 2` and `hchar ≥ 1` (`'?'` having a
glyph), starting from cursor `(0, 0)`, printing `hchar * wchar + 1` printable
characters triggers exactly one scroll: `ntermCheckBoundaries` returns 1 exactly
once over the whole sequence, and, when `lineSize ≠ totalSize`, exactly one of
the writes issued has `totalSize` bytes. -/
theorem putcAll_fill_grid (F : Font) (hq : F.minGlyph ≤ 63 ∧ 63 ≤ F.maxGlyph)
    (fuel : Nat) (hf : 1 ≤ fuel) (t : Terminal) (hw : 2 ≤ t.wchar) (hh : 1 ≤ t.hchar)
    (hx : t.x = 0) (hy : t.y = 0) (cs : List Int) (hp : ∀ c ∈ cs, c ≠ 10 ∧ c ≠ 13)
    (hn : cs.length = t.hchar * t.wchar + 1) :
    ∃ t2, putcAll F fuel cs t = some t2 ∧ t2.scrolls = t.scrolls + 1 ∧
      ∃ ws, t2.lfbWrites = t.lfbWrites ++ ws ∧ ws.length = cs.length ∧
        (t.lineSize ≠ t.totalSize → writesOfSize t.totalSize ws = 1) := by
  have h1len : (cs.take (t.hchar * t.wchar)).length = t.hchar * t.wchar := by
    rw [List.length_take]
    omega
  have h2len : (cs.drop (t.hchar * t.wchar)).length = 1 := by
    rw [List.length_drop]
    omega
  obtain ⟨t1, e1, x1, y1, s1, g1, ws1, a1, a2, a3⟩ :=
    putcAll_rows F hq fuel hf (t.hchar - 1) (cs.take (t.hchar * t.wchar)) t
      (fun c hc => hp c (List.mem_of_mem_take hc)) hx (by omega) (by omega)
      (by rw [h1len, Nat.sub_add_cancel hh])
  have g1' := g1
  obtain ⟨gw, gh, -, gp, gl, gt, -⟩ := g1'
  obtain ⟨t2, e2, x2, y2, s2, g2, ws2, b1, b2, b3⟩ :=
    putcAll_within_row F hq fuel hf (cs.drop (t.hchar * t.wchar)) t1
      (fun c hc => hp c (List.mem_of_mem_drop hc)) (by omega) (by omega)
  refine ⟨t2, ?_, by omega, ws1 ++ ws2, ?_, ?_, fun hne => ?_⟩
  · rw [← List.take_append_drop (t.hchar * t.wchar) cs, putcAll_append, e1]
    exact e2
  · rw [b1, a1, List.append_assoc]
  · rw [List.length_append, a2, b2, h1len, h2len, hn]
  · rw [writesOfSize_append, a3 hne, writesOfSize_of_all_ne _ ws2
      (fun v hv => by rw [(b3 v hv).2, gl]; exact hne)]

/-- C9 (amended), at a concrete input: five characters printed from `(0, 0)` of
a 2 x 2 grid scroll once. -/
theorem putcAll_fill_grid_witness :
    (blankFont.minGlyph ≤ 63 ∧ 63 ≤ blankFont.maxGlyph) ∧ 1 ≤ 1 ∧ 2 ≤ gridState.wchar ∧
    1 ≤ gridState.hchar ∧ gridState.x = 0 ∧ gridState.y = 0 ∧
    (∀ c ∈ [(65 : Int), 66, 200, 68, 69], c ≠ 10 ∧ c ≠ 13) ∧
    [(65 : Int), 66, 200, 68, 69].length = gridState.hchar * gridState.wchar + 1 ∧
    ∃ t2, putcAll blankFont 1 [65, 66, 200, 68, 69] gridState = some t2 ∧
      t2.scrolls = gridState.scrolls + 1 ∧
      ∃ ws, t2.lfbWrites = gridState.lfbWrites ++ ws ∧
        ws.length = [(65 : Int), 66, 200, 68, 69].length ∧
        (gridState.lineSize ≠ gridState.totalSize →
          writesOfSize gridState.totalSize ws = 1) :=
  ⟨by decide, by decide, by decide, by decide, rfl, rfl, by decide, by decide,
    putcAll_fill_grid blankFont (by decide) 1 (by decide) gridState (by decide) (by decide)
      rfl rfl [65, 66, 200, 68, 69] (by decide) (by decide)⟩

/-! ## Fallback glyph -/

/-- C10: fallback glyph.  For a character `c` other than newline and carriage
return that lies outside the glyph range, `ntermPutc(c)` does nothing but call
`ntermPutc('?')` on the same state; when `'?'` has a glyph the call returns,
with exactly the final state (cursor, mirror buffer, device writes) of
`ntermPutc('?')`, which is the state with `'?'` painted: the input is not dropped. -/
theorem putc_fallback (F : Font) (c : Int) (hn : c ≠ 10) (hr : c ≠ 13)
    (ho : c < F.minGlyph ∨ c > F.maxGlyph) (t : Terminal) :
    (∀ fuel, ntermPutc F (fuel + 1) c t = ntermPutc F fuel 63 t) ∧
    (F.minGlyph ≤ 63 → 63 ≤ F.maxGlyph → ∀ fuel, 1 ≤ fuel →
      ntermPutc F fuel c t = ntermPutc F fuel 63 t ∧
      ntermPutc F fuel c t = some (putcGlyph F 63 t)) := by
  have hstep : ∀ fuel, ntermPutc F (fuel + 1) c t = ntermPutc F fuel 63 t := by
    intro fuel
    conv_lhs => unfold ntermPutc
    rw [if_neg hn, if_neg hr, if_pos ho]
  refine ⟨hstep, fun h1 h2 fuel hf => ?_⟩
  have h63 : ∀ n, ntermPutc F n 63 t = some (putcGlyph F 63 t) := by
    intro n
    unfold ntermPutc
    rw [if_neg (by decide), if_neg (by decide), if_neg (by omega)]
  obtain ⟨n, rfl⟩ : ∃ n, fuel = n + 1 := ⟨fuel - 1, by omega⟩
  rw [hstep n, h63 n, h63 (n + 1)]
  exact ⟨rfl, rfl⟩

/-- C10, at a concrete input: the code 200, outside the range 32 to 126. -/
theorem putc_fallback_witness :
    (200 : Int) ≠ 10 ∧ (200 : Int) ≠ 13 ∧
    ((200 : Int) < blankFont.minGlyph ∨ (200 : Int) > blankFont.maxGlyph) ∧
    ntermPutc blankFont 1 200 paddedState = ntermPutc blankFont 1 63 paddedState ∧
    ntermPutc blankFont 1 200 paddedState = some (putcGlyph blankFont 63 paddedState) :=
  ⟨by decide, by decide, by decide,
    (putc_fallback blankFont 200 (by decide) (by decide) (by decide) paddedState).2
      (by decide) (by decide) 1 (by decide)⟩

/-! ## Newline and carriage return -/

theorem putcNewline_eq (t : Terminal) :
    putcNewline t =
      lfbWrite
        (lseek (ntermDrawCursor (ntermCheckBoundaries (putcNewlinePre t)).2)
          ((ntermDrawCursor (ntermCheckBoundaries (putcNewlinePre t)).2).y
            * (ntermDrawCursor (ntermCheckBoundaries (putcNewlinePre t)).2).lineSize))
        ((ntermDrawCursor (ntermCheckBoundaries (putcNewlinePre t)).2).y
          * (ntermDrawCursor (ntermCheckBoundaries (putcNewlinePre t)).2).lineSize)
        (ntermDrawCursor (ntermCheckBoundaries (putcNewlinePre t)).2).lineSize :=
  rfl

theorem putcNewline_of_noscroll (t : Terminal) (hw : 1 ≤ t.wchar) (hy : t.y + 1 < t.hchar) :
    ∃ b1 b2, putcNewline t =
      { t with
        x := 0
        y := t.y + 1
        buffer := b2
        lfbPos := (t.y + 1) * t.lineSize + t.lineSize
        lfbWrites := t.lfbWrites ++
          [{ offset := t.y * t.lineSize, data := readBytes b1 (t.y * t.lineSize) t.lineSize },
           { offset := (t.y + 1) * t.lineSize
             data := readBytes b2 ((t.y + 1) * t.lineSize) t.lineSize }] } := by
  have hx : ¬ ((putcNewlinePre t).x ≥ (putcNewlinePre t).wchar) := by
    show ¬ (0 ≥ t.wchar)
    omega
  have hns : ntermCheckBoundaries (putcNewlinePre t) = (0, putcNewlinePre t) := by
    rw [checkBoundaries_of_noscroll]
    · rw [if_neg hx]
    · rw [if_neg hx]
      exact hy
  rw [putcNewline_eq, hns]
  refine ⟨(ntermEraseCursor t).buffer, (ntermDrawCursor (putcNewlinePre t)).buffer, ?_⟩
  rcases Bool.eq_false_or_eq_true t.cursor with hc | hc
  · rw [drawCursor_of_on _ (by exact hc)]
    simp [lseek, lfbWrite, putcNewlinePre, ntermEraseCursor]
  · rw [drawCursor_of_off _ (by exact hc)]
    simp [lseek, lfbWrite, putcNewlinePre, ntermEraseCursor]

theorem putcNewline_of_scroll (t : Terminal) (hw : 1 ≤ t.wchar) (hy : t.hchar ≤ t.y + 1) :
    ∃ b1 b2 b3, putcNewline t =
      { t with
        x := 0
        y := t.hchar - 1
        buffer := b3
        scrolls := t.scrolls + 1
        lfbPos := (t.hchar - 1) * t.lineSize + t.lineSize
        lfbWrites := t.lfbWrites ++
          [{ offset := t.y * t.lineSize, data := readBytes b1 (t.y * t.lineSize) t.lineSize },
           { offset := 0, data := readBytes b2 0 t.totalSize },
           { offset := (t.hchar - 1) * t.lineSize
             data := readBytes b3 ((t.hchar - 1) * t.lineSize) t.lineSize }] } := by
  have hx : ¬ ((putcNewlinePre t).x ≥ (putcNewlinePre t).wchar) := by
    show ¬ (0 ≥ t.wchar)
    omega
  have hs := checkBoundaries_of_scroll (putcNewlinePre t) (by rw [if_neg hx]; exact hy)
  rw [putcNewline_eq, hs]
  refine ⟨(ntermEraseCursor t).buffer, (ntermCheckBoundaries (putcNewlinePre t)).2.buffer,
    (ntermDrawCursor (ntermCheckBoundaries (putcNewlinePre t)).2).buffer, ?_⟩
  rw [hs]
  rcases Bool.eq_false_or_eq_true t.cursor with hc | hc
  · rw [drawCursor_of_on _ (by exact hc)]
    simp [lseek, lfbWrite, putcNewlinePre, ntermEraseCursor]
  · rw [drawCursor_of_off _ (by exact hc)]
    simp [lseek, lfbWrite, putcNewlinePre, ntermEraseCursor]

theorem putcGlyph_of_scrolled (F : Font) (c : Int) (t : Terminal)
    (h : t.hchar ≤ (if t.x + 1 ≥ t.wchar then t.y + 1 else t.y)) :
    ∃ b, putcGlyph F c t =
      { t with
        x := 0
        y := t.hchar - 1
        buffer := b
        scrolls := t.scrolls + 1
        lfbPos := 0 + t.totalSize
        lfbWrites := t.lfbWrites ++ [{ offset := 0, data := readBytes b 0 t.totalSize }] } := by
  have hs := checkBoundaries_of_scroll (putcPaint F c t) h
  refine ⟨(ntermCheckBoundaries (putcPaint F c t)).2.buffer, ?_⟩
  unfold putcGlyph putcFinish
  rw [hs]
  rw [if_pos (show (1 : Nat) ≠ 0 by decide)]
  rfl

theorem putcGlyph_of_not_scrolled (F : Font) (c : Int) (t : Terminal)
    (h : (if t.x + 1 ≥ t.wchar then t.y + 1 else t.y) < t.hchar) :
    ∃ b, putcGlyph F c t =
      { t with
        x := if t.x + 1 ≥ t.wchar then 0 else t.x + 1
        y := if t.x + 1 ≥ t.wchar then t.y + 1 else t.y
        buffer := b
        lfbPos := (t.y * 16) * t.pitch + t.lineSize
        lfbWrites := t.lfbWrites ++
          [{ offset := (t.y * 16) * t.pitch
             data := readBytes b ((t.y * 16) * t.pitch) t.lineSize }] } := by
  have hns := checkBoundaries_of_noscroll (putcPaint F c t) h
  refine ⟨(ntermDrawCursor (ntermCheckBoundaries (putcPaint F c t)).2).buffer, ?_⟩
  unfold putcGlyph putcFinish
  simp only [hns]
  rw [if_neg (by decide)]
  by_cases hx : t.x + 1 ≥ t.wchar
  · rw [if_pos (show (putcPaint F c t).x ≥ (putcPaint F c t).wchar from hx), if_pos hx, if_pos hx]
    rcases Bool.eq_false_or_eq_true t.cursor with hc | hc
    · rw [drawCursor_of_on _ (by exact hc)]
      rfl
    · rw [drawCursor_of_off _ (by exact hc)]
      rfl
  · rw [if_neg (show ¬ ((putcPaint F c t).x ≥ (putcPaint F c t).wchar) from hx), if_neg hx,
      if_neg hx]
    rcases Bool.eq_false_or_eq_true t.cursor with hc | hc
    · rw [drawCursor_of_on _ (by exact hc)]
      rfl
    · rw [drawCursor_of_off _ (by exact hc)]
      rfl

/-- What a returning call of `ntermPutc` has run: one of its three paths. -/
theorem putc_cases (F : Font) (fuel : Nat) :
    ∀ (c : Int) (t t2 : Terminal), ntermPutc F fuel c t = some t2 →
      (c = 10 ∧ t2 = putcNewline t) ∨ (c = 13 ∧ t2 = putcReturn t) ∨
      (c ≠ 10 ∧ c ≠ 13 ∧ ∃ g, t2 = putcGlyph F g t) := by
  induction fuel with
  | zero =>
    intro c t t2 h
    unfold ntermPutc at h
    by_cases h10 : c = 10
    · rw [if_pos h10] at h
      exact Or.inl ⟨h10, (Option.some.inj h).symm⟩
    rw [if_neg h10] at h
    by_cases h13 : c = 13
    · rw [if_pos h13] at h
      exact Or.inr (Or.inl ⟨h13, (Option.some.inj h).symm⟩)
    rw [if_neg h13] at h
    by_cases ho : c < F.minGlyph ∨ c > F.maxGlyph
    · rw [if_pos ho] at h
      exact absurd h (by simp)
    · rw [if_neg ho] at h
      exact Or.inr (Or.inr ⟨h10, h13, c, (Option.some.inj h).symm⟩)
  | succ n ih =>
    intro c t t2 h
    unfold ntermPutc at h
    by_cases h10 : c = 10
    · rw [if_pos h10] at h
      exact Or.inl ⟨h10, (Option.some.inj h).symm⟩
    rw [if_neg h10] at h
    by_cases h13 : c = 13
    · rw [if_pos h13] at h
      exact Or.inr (Or.inl ⟨h13, (Option.some.inj h).symm⟩)
    rw [if_neg h13] at h
    by_cases ho : c < F.minGlyph ∨ c > F.maxGlyph
    · rw [if_pos ho] at h
      rcases ih 63 t t2 h with h1 | h1 | ⟨-, -, g, hg⟩
      · exact absurd h1.1 (by decide)
      · exact absurd h1.1 (by decide)
      · exact Or.inr (Or.inr ⟨h10, h13, g, hg⟩)
    · rw [if_neg ho] at h
      exact Or.inr (Or.inr ⟨h10, h13, c, (Option.some.inj h).symm⟩)

/-- C11: carriage return.  From any cursor position `(x, y)`, `ntermPutc('\r')`
returns with the cursor at `(0, y)` and the device untouched (no write, file
offset unchanged).  The mirror buffer is the one `ntermEraseCursor` leaves, so
the cursor is not drawn, and every byte outside the 16 pixels that
`ntermEraseCursor` stores at the old cursor position is unchanged. -/
theorem putc_carriage_return (F : Font) (fuel : Nat) (t : Terminal) :
    ∃ t2, ntermPutc F fuel 13 t = some t2 ∧ t2.x = 0 ∧ t2.y = t.y ∧
      t2.lfbWrites = t.lfbWrites ∧ t2.lfbPos = t.lfbPos ∧
      t2.buffer = (ntermEraseCursor t).buffer ∧
      ∀ k, (∀ i, i < 16 →
            k < cellAddr t + i * (4 * t.width) ∨ cellAddr t + i * (4 * t.width) + 4 ≤ k) →
        t2.buffer k = t.buffer k := by
  refine ⟨putcReturn t, ?_, rfl, rfl, rfl, rfl, rfl, fun k hk => ?_⟩
  · unfold ntermPutc
    rw [if_neg (by decide), if_pos rfl]
  · exact cursorLoop_of_outside _ _ _ _ _ _ hk

set_option maxRecDepth 100000 in
/-- C12 as stated fails on a grid of zero columns (`wchar = 0`, `hchar = 3`,
cursor at `(0, 0)`): after the newline sets `x = 0` and increments `y`, the
column test `x ≥ wchar` of `ntermCheckBoundaries` holds and increments `y`
again, so the cursor ends in row 2 and not in row 1. -/
theorem putc_newline_counterexample :
    zeroColumnState.y < zeroColumnState.hchar ∧ 1 ≤ zeroColumnState.hchar ∧
    zeroColumnState.y + 1 < zeroColumnState.hchar ∧
    (ntermPutc blankFont 0 10 zeroColumnState).map (fun t => (t.x, t.y, t.scrolls))
      = some (0, zeroColumnState.y + 2, 0) := by
  refine ⟨by decide, by decide, by decide, ?_⟩
  rfl

/-- C12 (amended): newline.  With `wchar ≥ 1`, `hchar ≥ 1`, `y < hchar` and any
column `x`, `ntermPutc('\n')` returns with the cursor at column 0, at row `y + 1`
without a scroll when `y + 1 < hchar`, and at row `hchar - 1` after exactly one
scroll when `y + 1 = hchar`. -/
theorem putc_newline (F : Font) (fuel : Nat) (t : Terminal) (hw : 1 ≤ t.wchar)
    (hh : 1 ≤ t.hchar) (hy : t.y < t.hchar) :
    ∃ t2, ntermPutc F fuel 10 t = some t2 ∧ t2.x = 0 ∧
      (t.y + 1 < t.hchar → t2.y = t.y + 1 ∧ t2.scrolls = t.scrolls) ∧
      (t.y + 1 = t.hchar → t2.y = t.hchar - 1 ∧ t2.scrolls = t.scrolls + 1) := by
  have _ := hh
  have _ := hy
  have hput : ntermPutc F fuel 10 t = some (putcNewline t) := by
    unfold ntermPutc
    rw [if_pos rfl]
  rcases Nat.lt_or_ge (t.y + 1) t.hchar with h | h
  · obtain ⟨b1, b2, hb⟩ := putcNewline_of_noscroll t hw h
    refine ⟨putcNewline t, hput, ?_, fun _ => ?_, fun h2 => ?_⟩
    · rw [hb]
    · rw [hb]
      exact ⟨rfl, rfl⟩
    · omega
  · obtain ⟨b1, b2, b3, hb⟩ := putcNewline_of_scroll t hw h
    refine ⟨putcNewline t, hput, ?_, fun h2 => ?_, fun _ => ?_⟩
    · rw [hb]
    · omega
    · rw [hb]
      exact ⟨rfl, rfl⟩

/-- C12 (amended), at concrete inputs: a newline in the top row and one in the
bottom row of a 2 x 2 grid. -/
theorem putc_newline_witness :
    (1 ≤ gridState.wchar ∧ 1 ≤ gridState.hchar ∧ gridState.y < gridState.hchar) ∧
    (∃ t2, ntermPutc blankFont 0 10 gridState = some t2 ∧ t2.x = 0 ∧
      (gridState.y + 1 < gridState.hchar →
        t2.y = gridState.y + 1 ∧ t2.scrolls = gridState.scrolls) ∧
      (gridState.y + 1 = gridState.hchar →
        t2.y = gridState.hchar - 1 ∧ t2.scrolls = gridState.scrolls + 1)) ∧
    (1 ≤ bottomRowState.wchar ∧ 1 ≤ bottomRowState.hchar ∧
      bottomRowState.y < bottomRowState.hchar ∧ bottomRowState.y + 1 = bottomRowState.hchar) ∧
    (∃ t2, ntermPutc blankFont 0 10 bottomRowState = some t2 ∧ t2.x = 0 ∧
      (bottomRowState.y + 1 < bottomRowState.hchar →
        t2.y = bottomRowState.y + 1 ∧ t2.scrolls = bottomRowState.scrolls) ∧
      (bottomRowState.y + 1 = bottomRowState.hchar →
        t2.y = bottomRowState.hchar - 1 ∧ t2.scrolls = bottomRowState.scrolls + 1)) :=
  ⟨⟨by decide, by decide, by decide⟩,
    putc_newline blankFont 0 gridState (by decide) (by decide) (by decide),
    ⟨by decide, by decide, by decide, by decide⟩,
    putc_newline blankFont 0 bottomRowState (by decide) (by decide) (by decide)⟩

/-! ## Cursor invariant -/

theorem checkBoundaries_cursorInRange (t : Terminal) (hh : 1 ≤ t.hchar)
    (hinv : CursorInRange t) : CursorInRange (ntermCheckBoundaries t).2 := by
  have _ := hh
  obtain ⟨-, hx, -, hy⟩ := hinv
  rcases Nat.lt_or_ge (if t.x ≥ t.wchar then t.y + 1 else t.y) t.hchar with h | h
  · rw [checkBoundaries_of_noscroll t h]
    by_cases hxw : t.x ≥ t.wchar
    · rw [if_pos hxw] at h
      simp only [if_pos hxw]
      exact ⟨Nat.zero_le _, Nat.zero_le _, Nat.zero_le _, Nat.le_of_lt h⟩
    · simp only [if_neg hxw]
      exact ⟨Nat.zero_le _, hx, Nat.zero_le _, hy⟩
  · rw [checkBoundaries_of_scroll t h]
    exact ⟨Nat.zero_le _, Nat.zero_le _, Nat.zero_le _, Nat.sub_le _ _⟩

theorem putcNewline_cursorInRange (t : Terminal) (hw : 1 ≤ t.wchar) :
    CursorInRange (putcNewline t) := by
  rcases Nat.lt_or_ge (t.y + 1) t.hchar with h | h
  · obtain ⟨b1, b2, hb⟩ := putcNewline_of_noscroll t hw h
    rw [hb]
    exact ⟨Nat.zero_le _, Nat.zero_le _, Nat.zero_le _, Nat.le_of_lt h⟩
  · obtain ⟨b1, b2, b3, hb⟩ := putcNewline_of_scroll t hw h
    rw [hb]
    exact ⟨Nat.zero_le _, Nat.zero_le _, Nat.zero_le _, Nat.sub_le _ _⟩

theorem putcGlyph_cursorInRange (F : Font) (c : Int) (t : Terminal)
    (hinv : CursorInRange t) : CursorInRange (putcGlyph F c t) := by
  obtain ⟨-, hx, -, hy⟩ := hinv
  rcases Nat.lt_or_ge (if t.x + 1 ≥ t.wchar then t.y + 1 else t.y) t.hchar with h | h
  · obtain ⟨b, hb⟩ := putcGlyph_of_not_scrolled F c t h
    rw [hb]
    by_cases hxw : t.x + 1 ≥ t.wchar
    · rw [if_pos hxw] at h
      simp only [if_pos hxw]
      exact ⟨Nat.zero_le _, Nat.zero_le _, Nat.zero_le _, Nat.le_of_lt h⟩
    · simp only [if_neg hxw]
      exact ⟨Nat.zero_le _, by show t.x + 1 ≤ t.wchar; omega, Nat.zero_le _, hy⟩
  · obtain ⟨b, hb⟩ := putcGlyph_of_scrolled F c t h
    rw [hb]
    exact ⟨Nat.zero_le _, Nat.zero_le _, Nat.zero_le _, Nat.sub_le _ _⟩

/-- C13: cursor invariant.  With `wchar ≥ 1` and `hchar ≥ 1`, if
`0 ≤ x ≤ wchar` and `0 ≤ y ≤ hchar` hold before a call of `ntermCheckBoundaries`
or of `ntermPutc(c)`, for any character `c`, they hold after it; and when `'?'`
has a glyph the call of `ntermPutc` does return. -/
theorem cursor_invariant (F : Font) (t : Terminal) (hw : 1 ≤ t.wchar) (hh : 1 ≤ t.hchar)
    (hinv : CursorInRange t) :
    CursorInRange (ntermCheckBoundaries t).2 ∧
    (∀ fuel c t2, ntermPutc F fuel c t = some t2 → CursorInRange t2) ∧
    (F.minGlyph ≤ 63 → 63 ≤ F.maxGlyph → ∀ fuel c, 1 ≤ fuel →
      ∃ t2, ntermPutc F fuel c t = some t2 ∧ CursorInRange t2) := by
  have hall : ∀ fuel c t2, ntermPutc F fuel c t = some t2 → CursorInRange t2 := by
    intro fuel c t2 h
    rcases putc_cases F fuel c t t2 h with ⟨-, rfl⟩ | ⟨-, rfl⟩ | ⟨-, -, g, rfl⟩
    · exact putcNewline_cursorInRange t hw
    · exact ⟨Nat.zero_le _, Nat.zero_le _, Nat.zero_le _, hinv.2.2.2⟩
    · exact putcGlyph_cursorInRange F g t hinv
  refine ⟨checkBoundaries_cursorInRange t hh hinv, hall, fun h1 h2 fuel c hf => ?_⟩
  have hsome : ∃ t2, ntermPutc F fuel c t = some t2 := by
    by_cases h10 : c = 10
    · exact ⟨putcNewline t, by unfold ntermPutc; rw [if_pos h10]⟩
    by_cases h13 : c = 13
    · exact ⟨putcReturn t, by unfold ntermPutc; rw [if_neg h10, if_pos h13]⟩
    exact ⟨_, putc_of_printable F ⟨h1, h2⟩ fuel hf c ⟨h10, h13⟩ t⟩
  obtain ⟨t2, ht2⟩ := hsome
  exact ⟨t2, ht2, hall fuel c t2 ht2⟩

/-- C13, at a concrete input: the cursor past the last column of the bottom row
of a 2 x 2 grid (`x = wchar`, `y = hchar - 1`), and the character 200. -/
theorem cursor_invariant_witness :
    (1 ≤ scrollState.wchar ∧ 1 ≤ scrollState.hchar ∧ CursorInRange scrollState) ∧
    CursorInRange (ntermCheckBoundaries scrollState).2 ∧
    ∃ t2, ntermPutc blankFont 1 200 scrollState = some t2 ∧ CursorInRange t2 :=
  ⟨⟨by decide, by decide, by decide, by decide, by decide, by decide⟩,
    (cursor_invariant blankFont scrollState (by decide) (by decide)
      ⟨by decide, by decide, by decide, by decide⟩).1,
    (cursor_invariant blankFont scrollState (by decide) (by decide)
      ⟨by decide, by decide, by decide, by decide⟩).2.2 (by decide) (by decide) 1 200
      (by decide)⟩

/-! ## Device writes of one call -/

theorem putcNewline_of_scrolled (t : Terminal)
    (h : t.hchar ≤ (if (0 : Nat) ≥ t.wchar then t.y + 1 + 1 else t.y + 1)) :
    ∃ b1 b2 b3, putcNewline t =
      { t with
        x := 0
        y := t.hchar - 1
        buffer := b3
        scrolls := t.scrolls + 1
        lfbPos := (t.hchar - 1) * t.lineSize + t.lineSize
        lfbWrites := t.lfbWrites ++
          [{ offset := t.y * t.lineSize, data := readBytes b1 (t.y * t.lineSize) t.lineSize },
           { offset := 0, data := readBytes b2 0 t.totalSize },
           { offset := (t.hchar - 1) * t.lineSize
             data := readBytes b3 ((t.hchar - 1) * t.lineSize) t.lineSize }] } := by
  have hs := checkBoundaries_of_scroll (putcNewlinePre t) h
  rw [putcNewline_eq, hs]
  refine ⟨(ntermEraseCursor t).buffer, (ntermCheckBoundaries (putcNewlinePre t)).2.buffer,
    (ntermDrawCursor (ntermCheckBoundaries (putcNewlinePre t)).2).buffer, ?_⟩
  rw [hs]
  rcases Bool.eq_false_or_eq_true t.cursor with hc | hc
  · rw [drawCursor_of_on _ (by exact hc)]
    simp [lseek, lfbWrite, putcNewlinePre, ntermEraseCursor]
  · rw [drawCursor_of_off _ (by exact hc)]
    simp [lseek, lfbWrite, putcNewlinePre, ntermEraseCursor]

theorem putcNewline_scrolls_of_not_scrolled (t : Terminal)
    (h : (if (0 : Nat) ≥ t.wchar then t.y + 1 + 1 else t.y + 1) < t.hchar) :
    (putcNewline t).scrolls = t.scrolls := by
  have hns := checkBoundaries_of_noscroll (putcNewlinePre t) h
  rw [putcNewline_eq, hns]
  show (ntermDrawCursor _).scrolls = t.scrolls
  rw [(drawCursor_frame _).2.2.2.2.2.2.2.2.2.2.2.2.2]
  by_cases hx : (putcNewlinePre t).x ≥ (putcNewlinePre t).wchar
  · rw [if_pos hx]; rfl
  · rw [if_neg hx]; rfl

set_option maxRecDepth 100000 in
/-- C15 as stated fails for the newline: in the bottom row of a 2 x 2 grid
`ntermPutc('\n')` scrolls, and the full-buffer write (offset 0, 2048 bytes) is
followed by a row write of `lineSize = 1024` bytes at offset 1024. -/
theorem putc_scroll_last_write_counterexample :
    (ntermPutc blankFont 0 10 bottomRowState).map
        (fun t => (t.scrolls, t.lfbWrites.map (fun w => (w.offset, w.data.length))))
      = some (bottomRowState.scrolls + 1, [(1024, 1024), (0, 2048), (1024, 1024)]) ∧
    bottomRowState.totalSize = 2048 ∧ bottomRowState.lineSize = 1024 := by
  refine ⟨?_, rfl, rfl⟩
  rfl

/-- C15 (amended): when the `ntermCheckBoundaries` call made inside a returning
`ntermPutc(c)` reports a scroll (the scroll counter changed), then for every
character `c` other than newline the full-buffer write (offset 0, `totalSize`
bytes of the final buffer) is the only and so the last device write of the
call.  For the newline the returned value is not looked at: the row left is
flushed before the scroll, and after the full-buffer write the cursor is drawn
and its row, `hchar - 1`, is flushed with `lineSize` bytes. -/
theorem putc_scroll_last_write (F : Font) (fuel : Nat) (c : Int) (t t2 : Terminal)
    (h : ntermPutc F fuel c t = some t2) (hs : t2.scrolls ≠ t.scrolls) :
    (c ≠ 10 →
      t2.lfbWrites
        = t.lfbWrites ++ [{ offset := 0, data := readBytes t2.buffer 0 t.totalSize }] ∧
      (readBytes t2.buffer 0 t.totalSize).length = t.totalSize) ∧
    (c = 10 → ∃ b1 b2,
      t2.lfbWrites = t.lfbWrites ++
        [{ offset := t.y * t.lineSize, data := readBytes b1 (t.y * t.lineSize) t.lineSize },
         { offset := 0, data := readBytes b2 0 t.totalSize },
         { offset := (t.hchar - 1) * t.lineSize
           data := readBytes t2.buffer ((t.hchar - 1) * t.lineSize) t.lineSize }]) := by
  rcases putc_cases F fuel c t t2 h with ⟨h10, rfl⟩ | ⟨h13, rfl⟩ | ⟨h10, -, g, rfl⟩
  · refine ⟨fun hne => absurd h10 hne, fun _ => ?_⟩
    rcases Nat.lt_or_ge (if (0 : Nat) ≥ t.wchar then t.y + 1 + 1 else t.y + 1) t.hchar
      with hc | hc
    · exact absurd (putcNewline_scrolls_of_not_scrolled t hc) hs
    · obtain ⟨b1, b2, b3, hb⟩ := putcNewline_of_scrolled t hc
      refine ⟨b1, b2, ?_⟩
      rw [hb]
  · exact absurd rfl hs
  · refine ⟨fun _ => ?_, fun h => absurd h h10⟩
    rcases Nat.lt_or_ge (if t.x + 1 ≥ t.wchar then t.y + 1 else t.y) t.hchar with hc | hc
    · obtain ⟨b, hb⟩ := putcGlyph_of_not_scrolled F g t hc
      rw [hb] at hs
      exact absurd rfl hs
    · obtain ⟨b, hb⟩ := putcGlyph_of_scrolled F g t hc
      rw [hb]
      exact ⟨rfl, by simp [readBytes]⟩

set_option maxRecDepth 100000 in
/-- C15 (amended), at a concrete input: the character 200 printed in the single
cell of a 1 x 1 grid scrolls and issues the full-buffer write only. -/
theorem putc_scroll_last_write_witness :
    ntermPutc blankFont 1 200 singleCellState
      = some (putcGlyph blankFont 63 singleCellState) ∧
    (putcGlyph blankFont 63 singleCellState).scrolls ≠ singleCellState.scrolls ∧
    (200 : Int) ≠ 10 ∧
    (putcGlyph blankFont 63 singleCellState).lfbWrites
      = singleCellState.lfbWrites ++
          [{ offset := 0
             data := readBytes (putcGlyph blankFont 63 singleCellState).buffer 0
               singleCellState.totalSize }] :=
  ⟨rfl, by decide, by decide,
    ((putc_scroll_last_write blankFont 1 200 singleCellState
      (putcGlyph blankFont 63 singleCellState) rfl (by decide)).1 (by decide)).1⟩

/-- C16: row flush after a glyph.  For a printable character `c` inside the glyph
range and a state with `x < wchar`, `y < hchar` and `lineSize = 16 * pitch` in
which `ntermPutc(c)` does not scroll, the call issues exactly one device write:
`lineSize` bytes at offset `y * 16 * pitch = y * lineSize`, `y` being the cursor
row before the call, and the bytes written are the bytes of the final mirror
buffer in that range. -/
theorem putc_row_flush (F : Font) (fuel : Nat) (c : Int) (hc : c ≠ 10 ∧ c ≠ 13)
    (hin : F.minGlyph ≤ c ∧ c ≤ F.maxGlyph) (t : Terminal) (hx : t.x < t.wchar)
    (hy : t.y < t.hchar) (hl : t.lineSize = 16 * t.pitch)
    (hns : ∀ t2, ntermPutc F fuel c t = some t2 → t2.scrolls = t.scrolls) :
    ∃ t2, ntermPutc F fuel c t = some t2 ∧
      t2.lfbWrites = t.lfbWrites ++
        [{ offset := t.y * 16 * t.pitch
           data := readBytes t2.buffer (t.y * 16 * t.pitch) t.lineSize }] ∧
      (readBytes t2.buffer (t.y * 16 * t.pitch) t.lineSize).length = t.lineSize ∧
      t.y * 16 * t.pitch = t.y * t.lineSize := by
  have _ := hx
  have _ := hy
  have hput : ntermPutc F fuel c t = some (putcGlyph F c t) := by
    unfold ntermPutc
    rw [if_neg hc.1, if_neg hc.2, if_neg (by omega)]
  have hsc := hns _ hput
  refine ⟨putcGlyph F c t, hput, ?_, by simp [readBytes], by rw [hl, Nat.mul_assoc]⟩
  rcases Nat.lt_or_ge (if t.x + 1 ≥ t.wchar then t.y + 1 else t.y) t.hchar with h | h
  · obtain ⟨b, hb⟩ := putcGlyph_of_not_scrolled F c t h
    rw [hb]
  · obtain ⟨b, hb⟩ := putcGlyph_of_scrolled F c t h
    rw [hb] at hsc
    exact absurd hsc (Nat.succ_ne_self _)

set_option maxRecDepth 100000 in
/-- C16, at a concrete input: the character 65 printed in the last column of the
top row of a 2 x 2 grid wraps without a scroll and flushes row 0. -/
theorem putc_row_flush_witness :
    ((65 : Int) ≠ 10 ∧ (65 : Int) ≠ 13) ∧
    (blankFont.minGlyph ≤ 65 ∧ 65 ≤ blankFont.maxGlyph) ∧
    lastColumnState.x < lastColumnState.wchar ∧ lastColumnState.y < lastColumnState.hchar ∧
    lastColumnState.lineSize = 16 * lastColumnState.pitch ∧
    (∀ t2, ntermPutc blankFont 0 65 lastColumnState = some t2 →
      t2.scrolls = lastColumnState.scrolls) ∧
    ∃ t2, ntermPutc blankFont 0 65 lastColumnState = some t2 ∧
      t2.lfbWrites = lastColumnState.lfbWrites ++
        [{ offset := lastColumnState.y * 16 * lastColumnState.pitch
           data := readBytes t2.buffer (lastColumnState.y * 16 * lastColumnState.pitch)
             lastColumnState.lineSize }] ∧
      (readBytes t2.buffer (lastColumnState.y * 16 * lastColumnState.pitch)
        lastColumnState.lineSize).length = lastColumnState.lineSize ∧
      lastColumnState.y * 16 * lastColumnState.pitch
        = lastColumnState.y * lastColumnState.lineSize :=
  have hns : ∀ t2, ntermPutc blankFont 0 65 lastColumnState = some t2 →
      t2.scrolls = lastColumnState.scrolls := by
    intro t2 h
    have h2 : ntermPutc blankFont 0 65 lastColumnState
        = some (putcGlyph blankFont 65 lastColumnState) := rfl
    rw [h2] at h
    rw [← Option.some.inj h]
    rfl
  ⟨by decide, by decide, by decide, by decide, by decide, hns,
    putc_row_flush blankFont 0 65 (by decide) (by decide) lastColumnState (by decide)
      (by decide) (by decide) hns⟩

/-! ## Drawing twice, drawing then erasing -/

/-- Byte `k` lies in one of the `n` pixels stored by `cursorLoop`, or in none. -/
theorem cursorLoop_inside_or_outside (fb w n k : Nat) :
    (∃ i r, i < n ∧ r < 4 ∧ k = fb + i * (4 * w) + r) ∨
    (∀ i, i < n → k < fb + i * (4 * w) ∨ fb + i * (4 * w) + 4 ≤ k) := by
  by_cases h : ∃ i, i < n ∧ fb + i * (4 * w) ≤ k ∧ k < fb + i * (4 * w) + 4
  · obtain ⟨i, hi, h1, h2⟩ := h
    exact Or.inl ⟨i, k - (fb + i * (4 * w)), hi, by omega, by omega⟩
  · right
    intro i hi
    by_cases h1 : k < fb + i * (4 * w)
    · exact Or.inl h1
    · right
      by_cases h2 : fb + i * (4 * w) + 4 ≤ k
      · exact h2
      · exact absurd ⟨i, hi, by omega, by omega⟩ h

theorem cursorLoop_idem (m : Memory) (fb w v n : Nat) :
    cursorLoop (cursorLoop m fb w v n) fb w v n = cursorLoop m fb w v n := by
  funext k
  rcases cursorLoop_inside_or_outside fb w n k with ⟨i, r, hi, hr, rfl⟩ | h
  · rw [cursorLoop_of_inside _ _ _ _ _ i r hi hr, cursorLoop_of_inside _ _ _ _ _ i r hi hr]
  · rw [cursorLoop_of_outside _ _ _ _ _ _ h]

/-- C17: drawing the cursor twice in a row leaves exactly the state (cursor,
mirror buffer, device writes and every other field) that drawing it once
leaves: `ntermDrawCursor` is idempotent. -/
theorem drawCursor_idempotent (t : Terminal) :
    ntermDrawCursor (ntermDrawCursor t) = ntermDrawCursor t := by
  rcases Bool.eq_false_or_eq_true t.cursor with hc | hc
  · rw [drawCursor_of_on t hc, drawCursor_of_on _ (by exact hc)]
    have hb : cursorLoop (cursorLoop t.buffer (cellAddr t) t.width t.fg.val 16)
        (cellAddr t) t.width t.fg.val 16
        = cursorLoop t.buffer (cellAddr t) t.width t.fg.val 16 := cursorLoop_idem _ _ _ _ _
    show ({ t with buffer := (cursorLoop (cursorLoop t.buffer (cellAddr t) t.width t.fg.val 16)
      (cellAddr t) t.width t.fg.val 16) } : Terminal) = _
    rw [hb]
  · rw [drawCursor_of_off t hc, drawCursor_of_off t hc]

/-- C18: draw then erase on a blank cell.  With `pitch = 4 * width`,
`width ≥ 8 * wchar`, `x < wchar`, `y < hchar` and all 8 x 16 pixels of the
current cell holding one colour `C`, `ntermDrawCursor` followed by
`ntermEraseCursor` gives back the mirror buffer as it was before the draw. -/
theorem draw_erase_roundtrip (t : Terminal) (hp : t.pitch = 4 * t.width)
    (hw : 8 * t.wchar ≤ t.width) (hx : t.x < t.wchar) (hy : t.y < t.hchar) (C : Nat)
    (hC : ∀ i j, i < 16 → j < 8 →
      load32 t.buffer ((16 * t.y + i) * t.pitch + (8 * t.x + j) * 4) = C) :
    (ntermEraseCursor (ntermDrawCursor t)).buffer = t.buffer := by
  have _ := hy
  have hcolumn : ∀ i, i < 16 → load32 t.buffer (cellAddr t + i * (4 * t.width)) = C := by
    intro i hi
    have h := hC i 0 hi (by omega)
    have haddr : (16 * t.y + i) * t.pitch + (8 * t.x + 0) * 4
        = cellAddr t + i * (4 * t.width) := by
      unfold cellAddr; rw [hp]; ring
    rw [haddr] at h
    exact h
  have hsample : load32 t.buffer (cellAddr t + 7 * 4) = C := by
    have h := hC 0 7 (by omega) (by omega)
    have haddr : (16 * t.y + 0) * t.pitch + (8 * t.x + 7) * 4 = cellAddr t + 7 * 4 := by
      unfold cellAddr; ring
    rw [haddr] at h
    exact h
  have herase : ∀ m : Memory, load32 m (cellAddr t + 7 * 4) = C →
      (∀ k, (∀ i, i < 16 →
          k < cellAddr t + i * (4 * t.width) ∨ cellAddr t + i * (4 * t.width) + 4 ≤ k) →
        m k = t.buffer k) →
      cursorLoop m (cellAddr t) t.width (load32 m (cellAddr t + 7 * 4)) 16 = t.buffer := by
    intro m hm hout
    funext k
    rcases cursorLoop_inside_or_outside (cellAddr t) t.width 16 k with ⟨i, r, hi, hr, rfl⟩ | h
    · rw [cursorLoop_of_inside _ _ _ _ _ i r hi hr, hm, ← hcolumn i hi, byteOf_load32 _ _ _ hr]
    · rw [cursorLoop_of_outside _ _ _ _ _ _ h]
      exact hout k h
  rcases Bool.eq_false_or_eq_true t.cursor with hc | hc
  · rw [drawCursor_of_on t hc]
    show cursorLoop (cursorLoop t.buffer (cellAddr t) t.width t.fg.val 16) (cellAddr t) t.width
      (load32 (cursorLoop t.buffer (cellAddr t) t.width t.fg.val 16) (cellAddr t + 7 * 4)) 16
      = t.buffer
    apply herase
    · rw [← hsample]
      apply load32_congr
      intro r hr
      apply cursorLoop_of_outside
      intro i _
      rcases Nat.eq_zero_or_pos i with h0 | hpos
      · subst h0
        right; omega
      · have hs := mul_stride_le 1 i (4 * t.width) hpos
        left; omega
    · intro k hk
      exact cursorLoop_of_outside _ _ _ _ _ _ hk
  · rw [drawCursor_of_off t hc]
    exact herase t.buffer hsample (fun _ _ => rfl)

/-- C18, at a concrete input: the blank 2 x 2 grid with the cursor shown at
cell `(0, 0)`. -/
theorem draw_erase_roundtrip_witness :
    (gridState.pitch = 4 * gridState.width ∧ 8 * gridState.wchar ≤ gridState.width ∧
      gridState.x < gridState.wchar ∧ gridState.y < gridState.hchar ∧
      ∀ i j, i < 16 → j < 8 →
        load32 gridState.buffer
          ((16 * gridState.y + i) * gridState.pitch + (8 * gridState.x + j) * 4) = 0) ∧
    (ntermEraseCursor (ntermDrawCursor gridState)).buffer = gridState.buffer :=
  ⟨⟨by decide, by decide, by decide, by decide, fun _ _ _ _ => rfl⟩,
    draw_erase_roundtrip gridState (by decide) (by decide) (by decide) (by decide) 0
      (fun _ _ _ _ => rfl)⟩

/-! ## Termination of the fallback -/

/-- C19: termination of the fallback recursion.  Provided `'?'` lies inside the
glyph range, `ntermPutc(c)` returns for every character and every state with at
most one nested call (fuel 1 is enough, and more fuel changes nothing); the
nested call is made only for a character outside the range, always with `'?'`,
and the call with `'?'` takes the in-range path without any nested call. -/
theorem putc_terminates (F : Font) (hq : F.minGlyph ≤ 63 ∧ 63 ≤ F.maxGlyph) (c : Int)
    (t : Terminal) :
    (∃ t2, ntermPutc F 1 c t = some t2) ∧
    (∀ fuel, 1 ≤ fuel → ntermPutc F fuel c t = ntermPutc F 1 c t) ∧
    (c ≠ 10 → c ≠ 13 → (c < F.minGlyph ∨ c > F.maxGlyph) →
      ∀ fuel, ntermPutc F (fuel + 1) c t = ntermPutc F fuel 63 t) ∧
    (∀ fuel, ntermPutc F fuel 63 t = some (putcGlyph F 63 t)) ∧
    (¬ (c ≠ 10 ∧ c ≠ 13 ∧ (c < F.minGlyph ∨ c > F.maxGlyph)) →
      ∃ t2, ntermPutc F 0 c t = some t2) := by
  have h63 : ∀ fuel, ntermPutc F fuel 63 t = some (putcGlyph F 63 t) := by
    intro fuel
    unfold ntermPutc
    rw [if_neg (by decide), if_neg (by decide), if_neg (by omega)]
  have hstep : c ≠ 10 → c ≠ 13 → (c < F.minGlyph ∨ c > F.maxGlyph) →
      ∀ fuel, ntermPutc F (fuel + 1) c t = ntermPutc F fuel 63 t := by
    intro h10 h13 ho fuel
    conv_lhs => unfold ntermPutc
    rw [if_neg h10, if_neg h13, if_pos ho]
  have hdirect : ¬ (c ≠ 10 ∧ c ≠ 13 ∧ (c < F.minGlyph ∨ c > F.maxGlyph)) →
      ∀ fuel, ∃ t2, ntermPutc F fuel c t = some t2 ∧ ntermPutc F 1 c t = some t2 := by
    intro hn fuel
    by_cases h10 : c = 10
    · exact ⟨putcNewline t, by unfold ntermPutc; rw [if_pos h10],
        by unfold ntermPutc; rw [if_pos h10]⟩
    by_cases h13 : c = 13
    · exact ⟨putcReturn t, by unfold ntermPutc; rw [if_neg h10, if_pos h13],
        by unfold ntermPutc; rw [if_neg h10, if_pos h13]⟩
    have ho : ¬ (c < F.minGlyph ∨ c > F.maxGlyph) := fun ho => hn ⟨h10, h13, ho⟩
    exact ⟨putcGlyph F c t, by unfold ntermPutc; rw [if_neg h10, if_neg h13, if_neg ho],
      by unfold ntermPutc; rw [if_neg h10, if_neg h13, if_neg ho]⟩
  by_cases hout : c ≠ 10 ∧ c ≠ 13 ∧ (c < F.minGlyph ∨ c > F.maxGlyph)
  · obtain ⟨h10, h13, ho⟩ := hout
    refine ⟨⟨_, (hstep h10 h13 ho 0).trans (h63 0)⟩, fun fuel hf => ?_, hstep, h63,
      fun hn => absurd ⟨h10, h13, ho⟩ hn⟩
    obtain ⟨n, rfl⟩ : ∃ n, fuel = n + 1 := ⟨fuel - 1, by omega⟩
    rw [hstep h10 h13 ho n, hstep h10 h13 ho 0, h63 n, h63 0]
  · refine ⟨?_, fun fuel _ => ?_, hstep, h63, fun _ => ?_⟩
    · obtain ⟨t2, -, h2⟩ := hdirect hout 1
      exact ⟨t2, h2⟩
    · obtain ⟨t2, h1, h2⟩ := hdirect hout fuel
      rw [h1, h2]
    · obtain ⟨t2, h1, -⟩ := hdirect hout 0
      exact ⟨t2, h1⟩

/-- C19, at a concrete input: the characters 200 (outside the range 32 to 126)
and 65 (inside it). -/
theorem putc_terminates_witness :
    (blankFont.minGlyph ≤ 63 ∧ 63 ≤ blankFont.maxGlyph) ∧
    (∃ t2, ntermPutc blankFont 1 200 paddedState = some t2) ∧
    (∃ t2, ntermPutc blankFont 0 65 paddedState = some t2) :=
  ⟨by decide, (putc_terminates blankFont (by decide) 200 paddedState).1,
    (putc_terminates blankFont (by decide) 65 paddedState).2.2.2.2 (by decide)⟩

/-! ## Mirror and device -/

set_option maxRecDepth 100000 in
/-- C14, evaluated where a glyph is printed in the last column of a row that is
not the bottom one (2 x 2 grid, blank buffer, device equal to it, cursor shown
at `(1, 0)`): the hypotheses of the claim hold, the call wraps to `(0, 1)`
without a scroll, draws the cursor there and flushes row 0 only, so the byte at
offset 1024 is 255 in the mirror buffer and still 0 on the device.  The same
happens to the second of two characters printed from `(0, 0)`. -/
theorem putc_sync_divergence :
    (4 * lastColumnState.width ≤ lastColumnState.pitch ∧
      8 * lastColumnState.wchar ≤ lastColumnState.width ∧
      lastColumnState.lineSize = 16 * lastColumnState.pitch ∧
      lastColumnState.totalSize = lastColumnState.hchar * lastColumnState.lineSize ∧
      lastColumnState.x < lastColumnState.wchar ∧ lastColumnState.y < lastColumnState.hchar ∧
      (∀ k, k < lastColumnState.totalSize → zeroMem k = lastColumnState.buffer k) ∧
      (65 : Int) ≠ 13) ∧
    (ntermPutc blankFont 0 65 lastColumnState).map
        (fun t => (t.x, t.y, t.scrolls, t.buffer 1024,
          deviceAfter zeroMem (t.lfbWrites.drop lastColumnState.lfbWrites.length) 1024))
      = some (0, 1, 0, 255, 0) ∧
    (putcAll blankFont 0 [65, 66] gridState).map
        (fun t => (t.x, t.y, t.scrolls, t.buffer 1024,
          deviceAfter zeroMem (t.lfbWrites.drop gridState.lfbWrites.length) 1024))
      = some (0, 1, 0, 255, 0) := by
  refine ⟨⟨by decide, by decide, by decide, by decide, by decide, by decide,
    fun _ _ => rfl, by decide⟩, ?_, ?_⟩
  · rfl
  · rfl

/-! ## Footprints lie inside the arrays -/

theorem row_end_le (y h p : Nat) (hy : y < h) : y * 16 * p + 16 * p ≤ h * 16 * p := by
  have h1 : (y + 1) * (16 * p) ≤ h * (16 * p) := Nat.mul_le_mul_right _ hy
  have h2 : (y + 1) * (16 * p) = y * 16 * p + 16 * p := by ring
  have h3 : h * (16 * p) = h * 16 * p := by ring
  omega

theorem cursorLoopAccesses_mem (fb w n : Nat) (a : Access)
    (h : a ∈ cursorLoopAccesses fb w n) :
    ∃ i, i < n ∧ a = { addr := fb + i * (4 * w), len := 4 } := by
  induction n with
  | zero => simp [cursorLoopAccesses] at h
  | succ n ih =>
    simp only [cursorLoopAccesses, List.mem_append, List.mem_singleton] at h
    rcases h with h | h
    · obtain ⟨i, hi, ha⟩ := ih h
      exact ⟨i, by omega, ha⟩
    · exact ⟨n, by omega, h⟩

theorem fillRowAccesses_mem (line n : Nat) (a : Access) (h : a ∈ fillRowAccesses line n) :
    ∃ j, j < n ∧ a = { addr := line + 4 * j, len := 4 } := by
  induction n with
  | zero => simp [fillRowAccesses] at h
  | succ n ih =>
    simp only [fillRowAccesses, List.mem_append, List.mem_singleton] at h
    rcases h with h | h
    · obtain ⟨j, hj, ha⟩ := ih h
      exact ⟨j, by omega, ha⟩
    · exact ⟨n, by omega, h⟩

theorem clearLoopAccesses_mem (base w p n : Nat) (a : Access)
    (h : a ∈ clearLoopAccesses base w p n) :
    ∃ i j, i < n ∧ j < w ∧ a = { addr := base + i * p + 4 * j, len := 4 } := by
  induction n with
  | zero => simp [clearLoopAccesses] at h
  | succ n ih =>
    simp only [clearLoopAccesses, List.mem_append] at h
    rcases h with h | h
    · obtain ⟨i, j, hi, hj, ha⟩ := ih h
      exact ⟨i, j, by omega, hj, ha⟩
    · obtain ⟨j, hj, ha⟩ := fillRowAccesses_mem _ _ _ h
      exact ⟨n, j, by omega, hj, ha⟩

theorem glyphRowAccesses_mem (fb n : Nat) (a : Access) (h : a ∈ glyphRowAccesses fb n) :
    ∃ j, j < n ∧ a = { addr := fb + 4 * j, len := 4 } := by
  induction n with
  | zero => simp [glyphRowAccesses] at h
  | succ n ih =>
    simp only [glyphRowAccesses, List.mem_append, List.mem_singleton] at h
    rcases h with h | h
    · obtain ⟨j, hj, ha⟩ := ih h
      exact ⟨j, by omega, ha⟩
    · exact ⟨n, by omega, h⟩

theorem glyphLoopAccesses_mem (fb p n : Nat) (a : Access)
    (h : a ∈ glyphLoopAccesses fb p n) :
    ∃ i j, i < n ∧ j < 8 ∧ a = { addr := fb + i * p + 4 * j, len := 4 } := by
  induction n with
  | zero => simp [glyphLoopAccesses] at h
  | succ n ih =>
    simp only [glyphLoopAccesses, List.mem_append] at h
    rcases h with h | h
    · obtain ⟨i, j, hi, hj, ha⟩ := ih h
      exact ⟨i, j, by omega, hj, ha⟩
    · obtain ⟨j, hj, ha⟩ := glyphRowAccesses_mem _ _ _ h
      exact ⟨n, j, by omega, hj, ha⟩

theorem glyphLoopFontReads_mem (idx n k : Nat) (h : k ∈ glyphLoopFontReads idx n) :
    ∃ i, i < n ∧ k = idx + i := by
  induction n with
  | zero => simp [glyphLoopFontReads] at h
  | succ n ih =>
    simp only [glyphLoopFontReads, List.mem_append, List.mem_singleton] at h
    rcases h with h | h
    · obtain ⟨i, hi, hk⟩ := ih h
      exact ⟨i, by omega, hk⟩
    · exact ⟨n, by omega, h⟩

/-- The 16 cursor stores of a cell inside the grid stay inside the rows of that cell. -/
theorem cursor_stores_in_bounds (x y wc hc w p tot : Nat) (h1 : 8 * wc ≤ w)
    (h2 : 4 * w ≤ p) (h3 : tot = hc * 16 * p) (hx : x < wc) (hy : y < hc) (a : Access)
    (ha : a ∈ cursorLoopAccesses ((y * 16) * p + (x * 8) * 4) w 16) :
    a.addr + a.len ≤ tot := by
  obtain ⟨i, hi, rfl⟩ := cursorLoopAccesses_mem _ _ _ _ ha
  have hrow := row_end_le y hc p hy
  have hs := mul_stride_le i 15 (4 * w) (by omega)
  show (y * 16) * p + (x * 8) * 4 + i * (4 * w) + 4 ≤ tot
  omega

/-- The 8 x 16 glyph stores of a cell inside the grid stay inside the rows of that cell. -/
theorem glyph_stores_in_bounds (x y wc hc w p tot : Nat) (h1 : 8 * wc ≤ w)
    (h2 : 4 * w ≤ p) (h3 : tot = hc * 16 * p) (hx : x < wc) (hy : y < hc) (a : Access)
    (ha : a ∈ glyphLoopAccesses ((y * 16) * p + (x * 8) * 4) p 16) :
    a.addr + a.len ≤ tot := by
  obtain ⟨i, j, hi, hj, rfl⟩ := glyphLoopAccesses_mem _ _ _ _ ha
  have hrow := row_end_le y hc p hy
  have hs := mul_stride_le i 15 p (by omega)
  show (y * 16) * p + (x * 8) * 4 + i * p + 4 * j + 4 ≤ tot
  omega

/-- The stores of the clear stay inside the bottom row. -/
theorem clear_stores_in_bounds (hc w p tot : Nat) (hh : 1 ≤ hc) (h2 : 4 * w ≤ p)
    (h3 : tot = hc * 16 * p) (a : Access)
    (ha : a ∈ clearLoopAccesses ((hc - 1) * 16 * p) w p 16) :
    a.addr + a.len ≤ tot := by
  obtain ⟨i, j, hi, hj, rfl⟩ := clearLoopAccesses_mem _ _ _ _ _ ha
  have hrow := row_end_le (hc - 1) hc p (by omega)
  have hs := mul_stride_le i 15 p (by omega)
  show (hc - 1) * 16 * p + i * p + 4 * j + 4 ≤ tot
  omega

theorem font_reads_in_bounds (F : Font) (c : Int) (hin : F.minGlyph ≤ c ∧ c ≤ F.maxGlyph)
    (k : Nat) (hk : k ∈ glyphLoopFontReads ((c - F.minGlyph) * 16).toNat 16) :
    k < fontSize F := by
  obtain ⟨i, hi, rfl⟩ := glyphLoopFontReads_mem _ _ _ hk
  unfold fontSize
  omega

theorem checkBoundariesAccesses_eq (t : Terminal) :
    checkBoundariesAccesses t =
      if t.hchar ≤ (if t.x ≥ t.wchar then t.y + 1 else t.y) then
        [{ addr := 16 * t.pitch, len := (t.hchar - 1) * 16 * t.pitch },
          { addr := 0, len := (t.hchar - 1) * 16 * t.pitch }]
          ++ clearLoopAccesses ((t.hchar - 1) * 16 * t.pitch) t.width t.pitch 16
          ++ [{ addr := 0, len := t.totalSize }]
      else [] := by
  unfold checkBoundariesAccesses
  by_cases hx : t.x ≥ t.wchar
  · simp only [hx, if_true]
  · simp only [hx, if_false]

theorem checkBoundariesAccesses_in_bounds (t : Terminal) (hh : 1 ≤ t.hchar)
    (h2 : 4 * t.width ≤ t.pitch) (h3 : t.totalSize = t.hchar * 16 * t.pitch) (a : Access)
    (ha : a ∈ checkBoundariesAccesses t) : a.addr + a.len ≤ t.totalSize := by
  rw [checkBoundariesAccesses_eq] at ha
  by_cases hc : t.hchar ≤ (if t.x ≥ t.wchar then t.y + 1 else t.y)
  · rw [if_pos hc] at ha
    have hrow := row_end_le (t.hchar - 1) t.hchar t.pitch (by omega)
    simp only [List.mem_append, List.mem_cons, List.mem_singleton, List.not_mem_nil,
      or_false] at ha
    rcases ha with ((rfl | rfl) | ha) | rfl
    · show 16 * t.pitch + (t.hchar - 1) * 16 * t.pitch ≤ t.totalSize
      omega
    · show 0 + (t.hchar - 1) * 16 * t.pitch ≤ t.totalSize
      omega
    · exact clear_stores_in_bounds t.hchar t.width t.pitch t.totalSize hh h2 h3 a ha
    · show 0 + t.totalSize ≤ t.totalSize
      omega
  · rw [if_neg hc] at ha
    simp at ha

theorem eraseCursorAccesses_in_bounds (t : Terminal) (h1 : 8 * t.wchar ≤ t.width)
    (h2 : 4 * t.width ≤ t.pitch) (h3 : t.totalSize = t.hchar * 16 * t.pitch)
    (hx : t.x < t.wchar) (hy : t.y < t.hchar) (a : Access)
    (ha : a ∈ eraseCursorAccesses t) : a.addr + a.len ≤ t.totalSize := by
  unfold eraseCursorAccesses at ha
  rcases List.mem_cons.mp ha with rfl | ha
  · have hrow := row_end_le t.y t.hchar t.pitch hy
    show (t.y * 16) * t.pitch + (t.x * 8) * 4 + 7 * 4 + 4 ≤ t.totalSize
    omega
  · exact cursor_stores_in_bounds t.x t.y t.wchar t.hchar t.width t.pitch t.totalSize
      h1 h2 h3 hx hy a ha

theorem drawCursorAccesses_in_bounds (t : Terminal) (h1 : 8 * t.wchar ≤ t.width)
    (h2 : 4 * t.width ≤ t.pitch) (h3 : t.totalSize = t.hchar * 16 * t.pitch)
    (hx : t.x < t.wchar) (hy : t.y < t.hchar) (a : Access)
    (ha : a ∈ drawCursorAccesses t) : a.addr + a.len ≤ t.totalSize := by
  unfold drawCursorAccesses at ha
  rcases Bool.eq_false_or_eq_true t.cursor with hc | hc
  · simp only [hc, Bool.not_true, Bool.false_eq_true, if_false] at ha
    exact cursor_stores_in_bounds t.x t.y t.wchar t.hchar t.width t.pitch t.totalSize
      h1 h2 h3 hx hy a ha
  · simp [hc] at ha

theorem putcGlyphAccesses_in_bounds (F : Font) (c : Int) (t : Terminal) (hh : 1 ≤ t.hchar)
    (h1 : 8 * t.wchar ≤ t.width) (h2 : 4 * t.width ≤ t.pitch) (hl : t.lineSize = 16 * t.pitch)
    (h3 : t.totalSize = t.hchar * 16 * t.pitch) (hx : t.x < t.wchar) (hy : t.y < t.hchar)
    (a : Access) (ha : a ∈ putcGlyphAccesses F c t) : a.addr + a.len ≤ t.totalSize := by
  unfold putcGlyphAccesses at ha
  simp only [List.mem_append] at ha
  rcases ha with ((ha | ha) | ha) | ha
  · exact eraseCursorAccesses_in_bounds t h1 h2 h3 hx hy a ha
  · exact glyph_stores_in_bounds t.x t.y t.wchar t.hchar t.width t.pitch t.totalSize
      h1 h2 h3 hx hy a ha
  · exact checkBoundariesAccesses_in_bounds (putcPaint F c t) hh h2 h3 a ha
  · rcases Nat.lt_or_ge (if t.x + 1 ≥ t.wchar then t.y + 1 else t.y) t.hchar with hc | hc
    · have hns := checkBoundaries_of_noscroll (putcPaint F c t) hc
      simp only [hns] at ha
      rw [if_neg (by decide)] at ha
      have hrow := row_end_le t.y t.hchar t.pitch hy
      rcases List.mem_append.mp ha with ha | ha
      · by_cases hxw : t.x + 1 ≥ t.wchar
        · rw [if_pos hxw] at hc
          rw [if_pos (show (putcPaint F c t).x ≥ (putcPaint F c t).wchar from hxw)] at ha
          exact drawCursorAccesses_in_bounds { putcPaint F c t with x := 0, y := t.y + 1 }
            h1 h2 h3 (show 0 < t.wchar by omega) hc a ha
        · rw [if_neg (show ¬ ((putcPaint F c t).x ≥ (putcPaint F c t).wchar) from hxw)] at ha
          exact drawCursorAccesses_in_bounds (putcPaint F c t) h1 h2 h3
            (show t.x + 1 < t.wchar by omega) hy a ha
      · rw [List.mem_singleton] at ha
        subst ha
        have hls : (ntermDrawCursor (if (putcPaint F c t).x ≥ (putcPaint F c t).wchar then
            { putcPaint F c t with x := 0, y := (putcPaint F c t).y + 1 }
            else putcPaint F c t)).lineSize = t.lineSize := by
          rw [(drawCursor_frame _).2.2.2.2.2.2.1]
          by_cases hxw : (putcPaint F c t).x ≥ (putcPaint F c t).wchar
          · rw [if_pos hxw]; rfl
          · rw [if_neg hxw]; rfl
        show (t.y * 16) * t.pitch + (ntermDrawCursor _).lineSize ≤ t.totalSize
        rw [hls]
        omega
    · have hs := checkBoundaries_of_scroll (putcPaint F c t) hc
      simp only [hs] at ha
      rw [if_pos (show (1 : Nat) ≠ 0 by decide)] at ha
      simp at ha

/-- The state in which `ntermPutc('\n')` draws the cursor: same geometry, cursor
at the start of a row of the grid. -/
theorem newline_cursor_state (t : Terminal) (hw : 1 ≤ t.wchar) (hh : 1 ≤ t.hchar) :
    SameGeometry t (ntermCheckBoundaries (putcNewlinePre t)).2 ∧
    (ntermCheckBoundaries (putcNewlinePre t)).2.x = 0 ∧
    (ntermCheckBoundaries (putcNewlinePre t)).2.y < t.hchar := by
  have hx : ¬ ((putcNewlinePre t).x ≥ (putcNewlinePre t).wchar) := by
    show ¬ (0 ≥ t.wchar)
    omega
  rcases Nat.lt_or_ge (t.y + 1) t.hchar with h | h
  · have hns : ntermCheckBoundaries (putcNewlinePre t) = (0, putcNewlinePre t) := by
      rw [checkBoundaries_of_noscroll]
      · rw [if_neg hx]
      · rw [if_neg hx]
        exact h
    rw [hns]
    exact ⟨⟨rfl, rfl, rfl, rfl, rfl, rfl, rfl, rfl, rfl⟩, rfl, h⟩
  · have hs := checkBoundaries_of_scroll (putcNewlinePre t) (by rw [if_neg hx]; exact h)
    rw [hs]
    exact ⟨⟨rfl, rfl, rfl, rfl, rfl, rfl, rfl, rfl, rfl⟩, rfl,
      show t.hchar - 1 < t.hchar by omega⟩

theorem putcNewlineAccesses_in_bounds (t : Terminal) (hw : 1 ≤ t.wchar) (hh : 1 ≤ t.hchar)
    (h1 : 8 * t.wchar ≤ t.width) (h2 : 4 * t.width ≤ t.pitch) (hl : t.lineSize = 16 * t.pitch)
    (h3 : t.totalSize = t.hchar * 16 * t.pitch) (hx : t.x < t.wchar) (hy : t.y < t.hchar)
    (a : Access) (ha : a ∈ putcNewlineAccesses t) : a.addr + a.len ≤ t.totalSize := by
  obtain ⟨hg, hx4, hy4⟩ := newline_cursor_state t hw hh
  obtain ⟨gw, gh, gwd, gp, gl, gt, -, -, -⟩ := hg
  unfold putcNewlineAccesses at ha
  simp only [List.mem_append, List.mem_singleton] at ha
  rcases ha with (((ha | rfl) | ha) | ha) | rfl
  · exact eraseCursorAccesses_in_bounds t h1 h2 h3 hx hy a ha
  · have hrow := row_end_le t.y t.hchar t.pitch hy
    show t.y * t.lineSize + t.lineSize ≤ t.totalSize
    rw [hl, ← Nat.mul_assoc]
    omega
  · exact checkBoundariesAccesses_in_bounds (putcNewlinePre t) hh h2 h3 a ha
  · have h := drawCursorAccesses_in_bounds (ntermCheckBoundaries (putcNewlinePre t)).2
      (by rw [gw, gwd]; exact h1) (by rw [gwd, gp]; exact h2) (by rw [gt, gh, gp]; exact h3)
      (by rw [hx4, gw]; omega) (by rw [gh]; exact hy4) a ha
    rw [gt] at h
    exact h
  · have hrow := row_end_le (ntermCheckBoundaries (putcNewlinePre t)).2.y t.hchar t.pitch hy4
    show (ntermDrawCursor _).y * (ntermDrawCursor _).lineSize + (ntermDrawCursor _).lineSize
      ≤ t.totalSize
    rw [(drawCursor_frame _).2.1, (drawCursor_frame _).2.2.2.2.2.2.1, gl, hl, ← Nat.mul_assoc]
    omega

/-! ## No store beyond the buffer -/

theorem cursorLoop_frame_high (m : Memory) (x y wc hc w p tot v : Nat) (h1 : 8 * wc ≤ w)
    (h2 : 4 * w ≤ p) (h3 : tot = hc * 16 * p) (hx : x < wc) (hy : y < hc) (k : Nat)
    (hk : tot ≤ k) :
    cursorLoop m ((y * 16) * p + (x * 8) * 4) w v 16 k = m k := by
  apply cursorLoop_of_outside
  intro i hi
  have hrow := row_end_le y hc p hy
  have hs := mul_stride_le i 15 (4 * w) (by omega)
  right; omega

theorem glyphLoop_frame_high (font : Nat → Byte) (idx : Nat) (m : Memory)
    (x y wc hc w p tot fg bg : Nat) (h1 : 8 * wc ≤ w) (h2 : 4 * w ≤ p) (h3 : tot = hc * 16 * p)
    (hx : x < wc) (hy : y < hc) (k : Nat) (hk : tot ≤ k) :
    glyphLoop font idx m ((y * 16) * p + (x * 8) * 4) p fg bg 16 k = m k := by
  apply glyphLoop_of_outside
  intro i hi
  have hrow := row_end_le y hc p hy
  have hs := mul_stride_le i 15 p (by omega)
  right; omega

theorem eraseCursor_frame_high (t : Terminal) (h1 : 8 * t.wchar ≤ t.width)
    (h2 : 4 * t.width ≤ t.pitch) (h3 : t.totalSize = t.hchar * 16 * t.pitch)
    (hx : t.x < t.wchar) (hy : t.y < t.hchar) (k : Nat) (hk : t.totalSize ≤ k) :
    (ntermEraseCursor t).buffer k = t.buffer k :=
  cursorLoop_frame_high _ t.x t.y t.wchar t.hchar t.width t.pitch t.totalSize _ h1 h2 h3 hx hy
    k hk

theorem drawCursor_frame_high (t : Terminal) (h1 : 8 * t.wchar ≤ t.width)
    (h2 : 4 * t.width ≤ t.pitch) (h3 : t.totalSize = t.hchar * 16 * t.pitch)
    (hx : t.x < t.wchar) (hy : t.y < t.hchar) (k : Nat) (hk : t.totalSize ≤ k) :
    (ntermDrawCursor t).buffer k = t.buffer k := by
  rcases Bool.eq_false_or_eq_true t.cursor with hc | hc
  · rw [drawCursor_of_on t hc]
    exact cursorLoop_frame_high _ t.x t.y t.wchar t.hchar t.width t.pitch t.totalSize _
      h1 h2 h3 hx hy k hk
  · rw [drawCursor_of_off t hc]

theorem checkBoundaries_frame_high (t : Terminal) (hh : 1 ≤ t.hchar)
    (h2 : 4 * t.width ≤ t.pitch) (h3 : t.totalSize = t.hchar * 16 * t.pitch) (k : Nat)
    (hk : t.totalSize ≤ k) : (ntermCheckBoundaries t).2.buffer k = t.buffer k := by
  rcases Nat.lt_or_ge (if t.x ≥ t.wchar then t.y + 1 else t.y) t.hchar with h | h
  · rw [checkBoundaries_of_noscroll t h]
    by_cases hxw : t.x ≥ t.wchar
    · simp only [if_pos hxw]
    · simp only [if_neg hxw]
  · rw [checkBoundaries_of_scroll t h]
    have hrow := row_end_le (t.hchar - 1) t.hchar t.pitch (by omega)
    show clearLoop _ _ _ _ _ 16 k = _
    rw [clearLoop_of_outside, memcpy_apply _ _ _ (Nat.zero_le _), if_neg (by omega)]
    intro i hi
    have hs := mul_stride_le i 15 t.pitch (by omega)
    right; omega

theorem putcPaint_frame_high (F : Font) (c : Int) (t : Terminal) (h1 : 8 * t.wchar ≤ t.width)
    (h2 : 4 * t.width ≤ t.pitch) (h3 : t.totalSize = t.hchar * 16 * t.pitch)
    (hx : t.x < t.wchar) (hy : t.y < t.hchar) (k : Nat) (hk : t.totalSize ≤ k) :
    (putcPaint F c t).buffer k = t.buffer k := by
  show glyphLoop F.data _ (ntermEraseCursor t).buffer ((t.y * 16) * t.pitch + (t.x * 8) * 4)
    t.pitch t.fg.val t.bg.val 16 k = _
  rw [glyphLoop_frame_high _ _ _ t.x t.y t.wchar t.hchar t.width t.pitch t.totalSize _ _
    h1 h2 h3 hx hy k hk]
  exact eraseCursor_frame_high t h1 h2 h3 hx hy k hk

theorem putcGlyph_frame_high (F : Font) (c : Int) (t : Terminal) (hh : 1 ≤ t.hchar)
    (h1 : 8 * t.wchar ≤ t.width) (h2 : 4 * t.width ≤ t.pitch)
    (h3 : t.totalSize = t.hchar * 16 * t.pitch) (hx : t.x < t.wchar) (hy : t.y < t.hchar)
    (k : Nat) (hk : t.totalSize ≤ k) : (putcGlyph F c t).buffer k = t.buffer k := by
  rw [← putcPaint_frame_high F c t h1 h2 h3 hx hy k hk]
  rcases Nat.lt_or_ge (if t.x + 1 ≥ t.wchar then t.y + 1 else t.y) t.hchar with h | h
  · have hns := checkBoundaries_of_noscroll (putcPaint F c t) h
    have hb : (putcGlyph F c t).buffer
        = (ntermDrawCursor (ntermCheckBoundaries (putcPaint F c t)).2).buffer := by
      unfold putcGlyph putcFinish
      simp only [hns]
      rw [if_neg (by decide)]
      rfl
    rw [hb, hns]
    by_cases hxw : t.x + 1 ≥ t.wchar
    · rw [if_pos hxw] at h
      rw [if_pos (show (putcPaint F c t).x ≥ (putcPaint F c t).wchar from hxw)]
      exact drawCursor_frame_high { putcPaint F c t with x := 0, y := t.y + 1 } h1 h2 h3
        (show 0 < t.wchar by omega) h k hk
    · rw [if_neg (show ¬ ((putcPaint F c t).x ≥ (putcPaint F c t).wchar) from hxw)]
      exact drawCursor_frame_high (putcPaint F c t) h1 h2 h3
        (show t.x + 1 < t.wchar by omega) hy k hk
  · have hs := checkBoundaries_of_scroll (putcPaint F c t) h
    have hb : (putcGlyph F c t).buffer = (ntermCheckBoundaries (putcPaint F c t)).2.buffer := by
      unfold putcGlyph putcFinish
      rw [hs]
      rw [if_pos (show (1 : Nat) ≠ 0 by decide)]
    rw [hb]
    exact checkBoundaries_frame_high (putcPaint F c t) hh h2 h3 k hk

theorem putcNewline_frame_high (t : Terminal) (hw : 1 ≤ t.wchar) (hh : 1 ≤ t.hchar)
    (h1 : 8 * t.wchar ≤ t.width) (h2 : 4 * t.width ≤ t.pitch)
    (h3 : t.totalSize = t.hchar * 16 * t.pitch) (hx : t.x < t.wchar) (hy : t.y < t.hchar)
    (k : Nat) (hk : t.totalSize ≤ k) : (putcNewline t).buffer k = t.buffer k := by
  obtain ⟨hg, hx4, hy4⟩ := newline_cursor_state t hw hh
  obtain ⟨gw, gh, gwd, gp, gl, gt, -, -, -⟩ := hg
  have hb : (putcNewline t).buffer k
      = (ntermDrawCursor (ntermCheckBoundaries (putcNewlinePre t)).2).buffer k := rfl
  have e1 : (ntermDrawCursor (ntermCheckBoundaries (putcNewlinePre t)).2).buffer k
      = (ntermCheckBoundaries (putcNewlinePre t)).2.buffer k :=
    drawCursor_frame_high (ntermCheckBoundaries (putcNewlinePre t)).2
      (by rw [gw, gwd]; exact h1) (by rw [gwd, gp]; exact h2) (by rw [gt, gh, gp]; exact h3)
      (by rw [hx4, gw]; omega) (by rw [gh]; exact hy4) k (by rw [gt]; exact hk)
  have e2 : (ntermCheckBoundaries (putcNewlinePre t)).2.buffer k = (putcNewlinePre t).buffer k :=
    checkBoundaries_frame_high (putcNewlinePre t) hh h2 h3 k hk
  have e3 : (putcNewlinePre t).buffer k = t.buffer k :=
    eraseCursor_frame_high t h1 h2 h3 hx hy k hk
  exact hb.trans (e1.trans (e2.trans e3))

theorem glyphFor_in_range (F : Font) (hq : F.minGlyph ≤ 63 ∧ 63 ≤ F.maxGlyph) (c : Int) :
    F.minGlyph ≤ glyphFor F c ∧ glyphFor F c ≤ F.maxGlyph := by
  unfold glyphFor
  by_cases ho : c < F.minGlyph ∨ c > F.maxGlyph
  · rw [if_pos ho]
    exact hq
  · rw [if_neg ho]
    omega

theorem putcFootprint_of_printable (F : Font) (hq : F.minGlyph ≤ 63 ∧ 63 ≤ F.maxGlyph)
    (fuel : Nat) (hf : 1 ≤ fuel) (c : Int) (hc : c ≠ 10 ∧ c ≠ 13) (t : Terminal) :
    ntermPutcFootprint F fuel c t
      = some { buffer := putcGlyphAccesses F (glyphFor F c) t
               font := glyphLoopFontReads ((glyphFor F c - F.minGlyph) * 16).toNat 16 } := by
  unfold glyphFor
  obtain ⟨n, rfl⟩ : ∃ n, fuel = n + 1 := ⟨fuel - 1, by omega⟩
  have h63 : ¬ ((63 : Int) < F.minGlyph ∨ (63 : Int) > F.maxGlyph) := by omega
  by_cases ho : c < F.minGlyph ∨ c > F.maxGlyph
  · rw [if_pos ho]
    unfold ntermPutcFootprint
    rw [if_neg hc.1, if_neg hc.2, if_pos ho]
    show ntermPutcFootprint F n 63 t = _
    unfold ntermPutcFootprint
    rw [if_neg (by decide), if_neg (by decide), if_neg h63]
  · rw [if_neg ho]
    unfold ntermPutcFootprint
    rw [if_neg hc.1, if_neg hc.2, if_neg ho]

/-- C20: in-bounds access.  With `wchar ≥ 1`, `hchar ≥ 1`, `8 * wchar ≤ width`,
`4 * width ≤ pitch`, `lineSize = 16 * pitch`, `totalSize = hchar * 16 * pitch`, a
font table of `16 * (FONT_MAX_GLYPH - FONT_MIN_GLYPH + 1)` bytes that has a glyph
for `'?'`, and the cursor at `x < wchar`, `y < hchar`, the call `ntermPutc(c)`
returns for every character `c`; every range of the mirror buffer it loads,
stores or hands to `write` (in `ntermEraseCursor`, `ntermDrawCursor` and
`ntermCheckBoundaries` too) lies inside the first `totalSize` bytes, every index
it reads in the font table is below the table size, no byte of memory past the
buffer changes, every device write lies
inside the first `totalSize` bytes of the device, and the cursor is again at
`x < wchar`, `y < hchar`. -/
theorem putc_in_bounds (F : Font) (hq : F.minGlyph ≤ 63 ∧ 63 ≤ F.maxGlyph) (t : Terminal)
    (hw : 1 ≤ t.wchar) (hh : 1 ≤ t.hchar) (h1 : 8 * t.wchar ≤ t.width)
    (h2 : 4 * t.width ≤ t.pitch) (hl : t.lineSize = 16 * t.pitch)
    (h3 : t.totalSize = t.hchar * 16 * t.pitch) (hx : t.x < t.wchar) (hy : t.y < t.hchar)
    (fuel : Nat) (hf : 1 ≤ fuel) (c : Int) :
    ∃ t2 fp, ntermPutc F fuel c t = some t2 ∧ ntermPutcFootprint F fuel c t = some fp ∧
      (∀ a ∈ fp.buffer, a.addr + a.len ≤ t.totalSize) ∧
      (∀ k ∈ fp.font, k < fontSize F) ∧
      (∀ k, t.totalSize ≤ k → t2.buffer k = t.buffer k) ∧
      (∃ ws, t2.lfbWrites = t.lfbWrites ++ ws ∧
        ∀ w ∈ ws, w.offset + w.data.length ≤ t.totalSize) ∧
      t2.wchar = t.wchar ∧ t2.hchar = t.hchar ∧ t2.x < t.wchar ∧ t2.y < t.hchar := by
  have hrow := row_end_le t.y t.hchar t.pitch hy
  have hlast := row_end_le (t.hchar - 1) t.hchar t.pitch (by omega)
  have hmul : ∀ y, y * t.lineSize = y * 16 * t.pitch := by
    intro y
    rw [hl, Nat.mul_assoc]
  by_cases h10 : c = 10
  · refine ⟨putcNewline t, { buffer := putcNewlineAccesses t, font := [] }, ?_, ?_,
      fun a ha => putcNewlineAccesses_in_bounds t hw hh h1 h2 hl h3 hx hy a ha,
      fun k hk => by simp at hk,
      fun k hk => putcNewline_frame_high t hw hh h1 h2 h3 hx hy k hk, ?_⟩
    · unfold ntermPutc
      rw [if_pos h10]
    · unfold ntermPutcFootprint
      rw [if_pos h10]
    · rcases Nat.lt_or_ge (t.y + 1) t.hchar with h | h
      · obtain ⟨b1, b2, hb⟩ := putcNewline_of_noscroll t hw h
        have hnext := row_end_le (t.y + 1) t.hchar t.pitch h
        rw [hb]
        refine ⟨⟨_, rfl, fun w hwm => ?_⟩, rfl, rfl, hw, h⟩
        simp only [List.mem_cons, List.mem_singleton, List.not_mem_nil, or_false] at hwm
        rcases hwm with rfl | rfl
        · simp only [readBytes, List.length_map, List.length_range]
          rw [hmul, hl]
          omega
        · simp only [readBytes, List.length_map, List.length_range]
          rw [hmul, hl]
          omega
      · obtain ⟨b1, b2, b3, hb⟩ := putcNewline_of_scroll t hw h
        rw [hb]
        refine ⟨⟨_, rfl, fun w hwm => ?_⟩, rfl, rfl, hw, show t.hchar - 1 < t.hchar by omega⟩
        simp only [List.mem_cons, List.mem_singleton, List.not_mem_nil, or_false] at hwm
        rcases hwm with rfl | rfl | rfl
        · simp only [readBytes, List.length_map, List.length_range]
          rw [hmul, hl]
          omega
        · simp only [readBytes, List.length_map, List.length_range]
          omega
        · simp only [readBytes, List.length_map, List.length_range]
          rw [hmul, hl]
          omega
  by_cases h13 : c = 13
  · refine ⟨putcReturn t, { buffer := eraseCursorAccesses t, font := [] }, ?_, ?_,
      fun a ha => eraseCursorAccesses_in_bounds t h1 h2 h3 hx hy a ha,
      fun k hk => by simp at hk,
      fun k hk => eraseCursor_frame_high t h1 h2 h3 hx hy k hk,
      ⟨[], by simp [putcReturn, ntermEraseCursor], by simp⟩,
      rfl, rfl, hw, hy⟩
    · unfold ntermPutc
      rw [if_neg h10, if_pos h13]
    · unfold ntermPutcFootprint
      rw [if_neg h10, if_pos h13]
  · have hin := glyphFor_in_range F hq c
    refine ⟨putcGlyph F (glyphFor F c) t, _, putc_of_printable F hq fuel hf c ⟨h10, h13⟩ t,
      putcFootprint_of_printable F hq fuel hf c ⟨h10, h13⟩ t,
      fun a ha => putcGlyphAccesses_in_bounds F _ t hh h1 h2 hl h3 hx hy a ha,
      fun k hk => font_reads_in_bounds F _ hin k hk,
      fun k hk => putcGlyph_frame_high F _ t hh h1 h2 h3 hx hy k hk, ?_⟩
    rcases Nat.lt_or_ge (if t.x + 1 ≥ t.wchar then t.y + 1 else t.y) t.hchar with h | h
    · obtain ⟨b, hb⟩ := putcGlyph_of_not_scrolled F (glyphFor F c) t h
      rw [hb]
      refine ⟨⟨_, rfl, fun w hwm => ?_⟩, rfl, rfl, ?_, ?_⟩
      · rw [List.mem_singleton] at hwm
        subst hwm
        simp only [readBytes, List.length_map, List.length_range]
        rw [hl]
        omega
      · by_cases hxw : t.x + 1 ≥ t.wchar
        · simp only [if_pos hxw]
          exact hw
        · simp only [if_neg hxw]
          omega
      · exact h
    · obtain ⟨b, hb⟩ := putcGlyph_of_scrolled F (glyphFor F c) t h
      rw [hb]
      refine ⟨⟨_, rfl, fun w hwm => ?_⟩, rfl, rfl, hw, show t.hchar - 1 < t.hchar by omega⟩
      rw [List.mem_singleton] at hwm
      subst hwm
      simp only [readBytes, List.length_map, List.length_range]
      omega

/-- C20, at a concrete input: the character 200 printed in the last column of
the top row of the 2 x 2 grid. -/
theorem putc_in_bounds_witness :
    ((blankFont.minGlyph ≤ 63 ∧ 63 ≤ blankFont.maxGlyph) ∧ 1 ≤ lastColumnState.wchar ∧
      1 ≤ lastColumnState.hchar ∧ 8 * lastColumnState.wchar ≤ lastColumnState.width ∧
      4 * lastColumnState.width ≤ lastColumnState.pitch ∧
      lastColumnState.lineSize = 16 * lastColumnState.pitch ∧
      lastColumnState.totalSize = lastColumnState.hchar * 16 * lastColumnState.pitch ∧
      lastColumnState.x < lastColumnState.wchar ∧ lastColumnState.y < lastColumnState.hchar ∧
      1 ≤ 1) ∧
    ∃ t2 fp, ntermPutc blankFont 1 200 lastColumnState = some t2 ∧
      ntermPutcFootprint blankFont 1 200 lastColumnState = some fp ∧
      (∀ a ∈ fp.buffer, a.addr + a.len ≤ lastColumnState.totalSize) ∧
      (∀ k ∈ fp.font, k < fontSize blankFont) ∧
      (∀ k, lastColumnState.totalSize ≤ k → t2.buffer k = lastColumnState.buffer k) ∧
      (∃ ws, t2.lfbWrites = lastColumnState.lfbWrites ++ ws ∧
        ∀ w ∈ ws, w.offset + w.data.length ≤ lastColumnState.totalSize) ∧
      t2.wchar = lastColumnState.wchar ∧ t2.hchar = lastColumnState.hchar ∧
      t2.x < lastColumnState.wchar ∧ t2.y < lastColumnState.hchar :=
  ⟨⟨by decide, by decide, by decide, by decide, by decide, by decide, by decide, by decide,
      by decide, by decide⟩,
    putc_in_bounds blankFont (by decide) lastColumnState (by decide) (by decide) (by decide)
      (by decide) (by decide) (by decide) (by decide) (by decide) 1 (by decide) 200⟩

/-! ## The scroll and the copy order of memcpy -/

theorem memcpy_isMemcpy : IsMemcpy memcpy := by
  intro m dst src n
  induction n with
  | zero =>
    intro _ k
    rw [if_neg (by omega)]
    rfl
  | succ n ih =>
    intro hd k
    have ih2 := ih (by omega)
    simp only [memcpy, storeByte]
    by_cases hk : k = dst + n
    · subst hk
      rw [if_pos rfl, ih2, if_neg (by omega), if_pos (by omega)]
      congr 1; omega
    · rw [if_neg hk, ih2]
      by_cases hin : dst ≤ k ∧ k < dst + n
      · rw [if_pos hin, if_pos (by omega)]
      · rw [if_neg hin, if_neg (by omega)]

theorem memcpyDown_isMemcpy : IsMemcpy memcpyDown := by
  intro m dst src n
  induction n generalizing m with
  | zero =>
    intro _ k
    rw [if_neg (by omega)]
    rfl
  | succ n ih =>
    intro hd k
    simp only [memcpyDown]
    rw [ih _ (by omega)]
    by_cases hin : dst ≤ k ∧ k < dst + n
    · rw [if_pos hin, if_pos (by omega)]
      simp only [storeByte]
      rw [if_neg (by omega)]
    · rw [if_neg hin]
      simp only [storeByte]
      by_cases hk : k = dst + n
      · subst hk
        rw [if_pos rfl, if_pos (by omega)]
        congr 1; omega
      · rw [if_neg hk, if_neg (by omega)]

/-- The descending copy to offset 0 leaves the bytes from offset `n` on as they were. -/
theorem memcpyDown_of_high (d n : Nat) : ∀ (m : Memory) (k : Nat), n ≤ k →
    memcpyDown m 0 d n k = m k := by
  induction n with
  | zero => intro m k _; rfl
  | succ n ih =>
    intro m k hk
    simp only [memcpyDown]
    rw [ih _ k (by omega)]
    simp only [storeByte]
    rw [if_neg (by omega)]

/-- The descending copy from offset `d` to offset 0: byte `k` receives the byte
at `k + d` as it is when byte `k` is copied, which is the old byte if `k + d`
lies past the destination and the byte already copied to `k + d` otherwise. -/
theorem memcpyDown_step (d : Nat) (hd : 1 ≤ d) (n : Nat) : ∀ (m : Memory) (k : Nat), k < n →
    memcpyDown m 0 d n k
      = if k + d < n then memcpyDown m 0 d n (k + d) else m (k + d) := by
  induction n with
  | zero => intro m k hk; omega
  | succ n ih =>
    intro m k hk
    simp only [memcpyDown]
    by_cases hkn : k = n
    · subst hkn
      rw [if_neg (by omega), memcpyDown_of_high d k _ k (Nat.le_refl _)]
      simp only [storeByte, Nat.zero_add, if_true]
      congr 1; omega
    · rw [ih _ k (by omega)]
      by_cases h1 : k + d < n
      · rw [if_pos h1, if_pos (by omega)]
      · rw [if_neg h1]
        by_cases h2 : k + d = n
        · rw [if_pos (by omega), h2, memcpyDown_of_high d n _ n (Nat.le_refl _)]
        · rw [if_neg (by omega)]
          simp only [storeByte, Nat.zero_add]
          rw [if_neg h2]

theorem checkBoundariesWith_of_scroll (copy : Memory → Nat → Nat → Nat → Memory)
    (t : Terminal) (hy : t.hchar ≤ (if t.x ≥ t.wchar then t.y + 1 else t.y)) :
    (ntermCheckBoundariesWith copy t).1 = 1 ∧
    (ntermCheckBoundariesWith copy t).2.buffer
      = clearLoop (copy t.buffer 0 (16 * t.pitch) ((t.hchar - 1) * 16 * t.pitch))
          ((t.hchar - 1) * 16 * t.pitch) t.width t.pitch t.bg.val 16 := by
  unfold ntermCheckBoundariesWith
  by_cases hx : t.x ≥ t.wchar
  · simp only [hx, if_true] at hy ⊢
    simp [hy, lseek, lfbWrite]
  · simp only [hx, if_false] at hy ⊢
    simp [hy, lseek, lfbWrite]

/-- With the ascending copy for `memcpy` the parameterised function is `ntermCheckBoundaries`. -/
theorem checkBoundariesWith_memcpy (t : Terminal) :
    ntermCheckBoundariesWith memcpy t = ntermCheckBoundaries t := rfl

/-- What the source guarantees of the scroll whatever the library's `memcpy`:
the first `width` pixels of each of the last 16 scanlines are `bg`; and, for a
`memcpy` that does what C promises and a grid of at most two rows (the ranges
of the copy do not overlap), the rows above hold the bytes that were one cell
row below and the padding of the last 16 scanlines is unchanged. -/
theorem checkBoundariesWith_scroll (copy : Memory → Nat → Nat → Nat → Memory)
    (t : Terminal) (hh : 1 ≤ t.hchar) (hp : 4 * t.width ≤ t.pitch)
    (hy : t.hchar ≤ (if t.x ≥ t.wchar then t.y + 1 else t.y)) :
    (∀ i j, i < 16 → j < t.width →
        load32 (ntermCheckBoundariesWith copy t).2.buffer
          (((t.hchar - 1) * 16 + i) * t.pitch + j * 4) = t.bg.val) ∧
    (IsMemcpy copy → t.hchar ≤ 2 →
      (∀ k, k < (t.hchar - 1) * 16 * t.pitch →
        (ntermCheckBoundariesWith copy t).2.buffer k = t.buffer (k + 16 * t.pitch)) ∧
      (∀ i r, i < 16 → t.width * 4 ≤ r → r < t.pitch →
        (ntermCheckBoundariesWith copy t).2.buffer (((t.hchar - 1) * 16 + i) * t.pitch + r)
          = t.buffer (((t.hchar - 1) * 16 + i) * t.pitch + r))) := by
  rw [(checkBoundariesWith_of_scroll copy t hy).2]
  refine ⟨fun i j hi hj => ?_, fun hc h2 => ?_⟩
  · have hval := load32_of_bytes
      (clearLoop (copy t.buffer 0 (16 * t.pitch) ((t.hchar - 1) * 16 * t.pitch))
        ((t.hchar - 1) * 16 * t.pitch) t.width t.pitch t.bg.val 16)
      ((t.hchar - 1) * 16 * t.pitch + i * t.pitch + 4 * j) t.bg.val
      (fun r hr => clearLoop_of_inside _ _ _ _ _ _ hp i j r hi hj hr)
    rw [Nat.mod_eq_of_lt t.bg.isLt] at hval
    rw [Nat.add_mul, Nat.mul_comm j 4]
    exact hval
  · have hsize : (t.hchar - 1) * 16 * t.pitch ≤ 16 * t.pitch := by
      have h1 : t.hchar - 1 ≤ 1 := by omega
      have h3 := Nat.mul_le_mul_right (16 * t.pitch) h1
      rw [Nat.one_mul, ← Nat.mul_assoc] at h3
      exact h3
    have hcopy := hc t.buffer 0 (16 * t.pitch) ((t.hchar - 1) * 16 * t.pitch)
      (Or.inl (by omega))
    refine ⟨fun k hk => ?_, fun i r _ hr hrp => ?_⟩
    · rw [clearLoop_of_outside _ _ _ _ _ _ _ (fun i _ => Or.inl (by omega)), hcopy,
        if_pos (by omega)]
      congr 1; omega
    · rw [Nat.add_mul, clearLoop_of_outside, hcopy, if_neg (by omega)]
      intro i2 _
      rcases Nat.lt_or_ge i i2 with hlt | hge
      · have hs := mul_stride_le (i + 1) i2 t.pitch (by omega)
        rw [Nat.add_mul, Nat.one_mul] at hs
        left; omega
      · have hs := mul_stride_le i2 i t.pitch hge
        right; omega

/-- On a grid of three rows the descending copy puts in cell row 0 the bytes
that were in cell row 2, two rows below instead of one. -/
theorem scroll_down_copy_low (m : Memory) (w p v k : Nat) (hk : k < 16 * p) :
    clearLoop (memcpyDown m 0 (16 * p) ((3 - 1) * 16 * p)) ((3 - 1) * 16 * p) w p v 16 k
      = m (k + 16 * p + 16 * p) := by
  rw [clearLoop_of_outside _ _ _ _ _ _ _ (fun i _ => Or.inl (by omega))]
  rw [memcpyDown_step _ (by omega) _ _ _ (by omega), if_pos (by omega)]
  rw [memcpyDown_step _ (by omega) _ _ _ (by omega), if_neg (by omega)]

/-- C1, evaluated on a grid of three rows (`wchar = 1`, `hchar = 3`,
`pitch = 32`, the byte at offset `k` being `k / 512`, the number of its cell
row) with the cursor past the last cell.  The hypotheses of the claim hold, the
source of the `memcpy` starts at offset 512 inside its destination of 1024
bytes, and `memcpyDown` is a `memcpy` as far as C defines one; with it the byte
at offset 0 after the call is 2, the byte that was at offset 1024, and not 1,
the byte that was at offset `0 + 16 * pitch = 512`.  With the ascending copy it
is 1. -/
theorem checkBoundaries_scroll_overlap_divergence :
    (1 ≤ threeRowState.hchar ∧ 4 * threeRowState.width ≤ threeRowState.pitch ∧
      threeRowState.hchar ≤
        (if threeRowState.x ≥ threeRowState.wchar then threeRowState.y + 1
          else threeRowState.y)) ∧
    16 * threeRowState.pitch < (threeRowState.hchar - 1) * 16 * threeRowState.pitch ∧
    IsMemcpy memcpyDown ∧
    (ntermCheckBoundariesWith memcpyDown threeRowState).1 = 1 ∧
    (ntermCheckBoundariesWith memcpyDown threeRowState).2.buffer 0 = 2 ∧
    threeRowState.buffer (0 + 16 * threeRowState.pitch) = 1 ∧
    (ntermCheckBoundariesWith memcpy threeRowState).2.buffer 0 = 1 := by
  have hy : threeRowState.hchar ≤
      (if threeRowState.x ≥ threeRowState.wchar then threeRowState.y + 1
        else threeRowState.y) := by decide
  refine ⟨⟨by decide, by decide, hy⟩, by decide, memcpyDown_isMemcpy,
    (checkBoundariesWith_of_scroll memcpyDown threeRowState hy).1, ?_, rfl, ?_⟩
  · rw [(checkBoundariesWith_of_scroll memcpyDown threeRowState hy).2]
    exact (scroll_down_copy_low bandMem 8 32 0 0 (by decide)).trans rfl
  · rw [(checkBoundariesWith_of_scroll memcpy threeRowState hy).2]
    exact (scroll_buffer_low bandMem 3 8 32 0 0 (by decide)).trans rfl

end Nterm
